import Mathlib

/-!
Shallow embedding of `pkg/vm/engine/tae/logtail/backup.go` (MatrixOne
checkpoint-rewrite / backup-compaction engine) and proofs about it.

The Go file is embedded function by function.  External collaborators
(the object-file codec, the file service, the container library) are
modelled as oracles carried in an `Env` record or, where the spec
describes their behaviour precisely, as list operations.
-/

set_option autoImplicit false

namespace Backup

/-- Logical timestamps (`types.TS`).  `TS.Less`/`TS.Greater` are the strict
order, modelled by `<` on `Nat`. -/
abbrev TS := Nat

/-- `objectio.ObjectName`: identifies a physical object file.  In Go it is a
segment id plus a file number; `Name().String()` is injective on these two
fields, so the model uses the structure itself where Go compares the
rendered string. -/
structure ObjectName where
  segment : Nat
  num : Nat
deriving DecidableEq

/-- `objectio.Location`: (object name, block index in the object, byte
extent, row count).  The Go value is a byte slice which may be empty; an
empty location is modelled as `none` at each use site (`Option Loc`). -/
structure Loc where
  name : ObjectName
  id : Nat
  extent : Nat
  rows : Nat
deriving DecidableEq

/-- `objectio.BuildLocation(name, extent, rows, id)`. -/
def buildLocation (name : ObjectName) (extent rows id : Nat) : Loc :=
  { name := name, id := id, extent := extent, rows := rows }

/-- `objectio.BuildObjectName(&segment, num)`. -/
def buildObjectName (segment num : Nat) : ObjectName :=
  { segment := segment, num := num }

/-- `types.Blockid`: segment id, file number, block number.
`Blockid.String()` is injective, so Go's string comparisons are modelled
as equality of the structure. -/
structure Blockid where
  segment : Nat
  fileNum : Nat
  blkNum : Nat
deriving DecidableEq

/-- `objectio.BuildObjectBlockid(name, id)`. -/
def buildObjectBlockid (name : ObjectName) (id : Nat) : Blockid :=
  { segment := name.segment, fileNum := name.num, blkNum := id }

/-- A row id as decoded by `Rowid.Decode()`: owning block id and row
offset.  `HackBytes2Rowid` reads these from a tombstone row's first
column; the model stores the decoded pair directly. -/
structure RowId where
  blockId : Blockid
  offset : Nat
deriving DecidableEq

/-- `objectio.HackBlockid2Rowid(&blockID)`: a row id denoting the block
itself (offset 0). -/
def hackBlockid2Rowid (blockID : Blockid) : RowId :=
  { blockId := blockID, offset := 0 }

/-- `objectio.DataMetaType`: the two block kinds used by the rewrite. -/
inductive DataMetaType where
  | schemaData
  | schemaTombstone
deriving DecidableEq

/-- One row of a loaded columnar batch (`batch.Batch`), restricted to the
fields the rewrite reads: the row-id column (first vector of a tombstone
batch), the commit-timestamp column (`len-3` for tombstone batches,
`len-2` for data batches), and an opaque payload standing for all other
columns. -/
structure BatchRow where
  rowid : RowId
  commitTs : TS
  payload : Nat
deriving DecidableEq

/-- A loaded batch is its list of rows, in physical order. -/
abbrev Batch := List BatchRow

/-- Modelled from the spec: `batch.Batch.Shrink(keep)` (container library,
outside the provided sources) shrinks the batch to the kept set — it keeps
exactly the rows whose offsets are listed, in their original order. -/
def shrink (bat : Batch) (keep : List Nat) : Batch :=
  ((bat.enum.filter (fun p => decide (p.1 ∈ keep))).map Prod.snd)

/-- Modelled from the spec: `batch.Batch.AntiShrink(del)` (container
library, outside the provided sources) performs an inverse-selection
shrink — it removes exactly the listed row offsets and retains all other
rows in their original order. -/
def antiShrink (bat : Batch) (del : List Nat) : Batch :=
  ((bat.enum.filter (fun p => decide (p.1 ∉ del))).map Prod.snd)

/-- Modelled from the spec: `windowCNBatch(bat, start, end)` (defined in
this repository outside the provided sources) restricts the batch to the
row range `[start, end)`; the spec states that the first row exceeding the
watermark truncates the block at that boundary, all rows from that point
on being dropped. -/
def windowCNBatch (bat : Batch) (start stop : Nat) : Batch :=
  (bat.drop start).take (stop - start)

/-- `formatData` reformats a loaded batch into the canonical column layout
(attribute renaming and engine-native re-encoding via `ToTNBatch` /
`ToCNBatch`).  It does not add, drop or reorder rows, so on the row-level
model it is the identity. -/
def formatData (data : Batch) : Batch := data

/-- `blockData`: one physical block under rewrite consideration.  The Go
`tombstone *blockData` pointer into the object map is modelled as the key
`(object name, block index)` of the target entry, dereferenced against the
current map state at each use site. -/
structure BlockData where
  num : Nat
  deleteRow : List Nat
  insertRow : List Nat
  blockType : DataMetaType
  location : Loc
  data : Option Batch
  sortKey : Nat
  isABlock : Bool
  blockId : Blockid
  tid : Nat
  tombstone : Option (ObjectName × Nat)
deriving DecidableEq

/-- `math.MaxUint16`, the "no sort key" sentinel. -/
def maxUint16 : Nat := 65535

/-- `fileData`: one physical object file under rewrite.  The Go
`map[uint16]*blockData` is modelled as an association list keyed by the
block index (Go map iteration order is unspecified; the association list
fixes insertion order, which none of the proved properties depend on). -/
structure FileData where
  data : List (Nat × BlockData)
  name : ObjectName
  isDeleteBatch : Bool
  isChange : Bool
  isABlock : Bool
deriving DecidableEq

/-- The `map[string]*fileData` of the rewrite, keyed by
`location.Name().String()` (modelled by the `ObjectName` itself). -/
abbrev ObjectsData := List (ObjectName × FileData)

/-- Association-list lookup for `ObjectsData`. -/
def odLookup (od : ObjectsData) (name : ObjectName) : Option FileData :=
  match od.find? (fun p => p.1 = name) with
  | none => none
  | some p => some p.2

/-- Replace the entry for `name` (first occurrence) by `fd`. -/
def odSet (od : ObjectsData) (name : ObjectName) (fd : FileData) : ObjectsData :=
  od.map (fun p => if p.1 = name then (p.1, fd) else p)

/-- Lookup in a `fileData`'s block map. -/
def fdLookup (blocks : List (Nat × BlockData)) (id : Nat) : Option BlockData :=
  match blocks.find? (fun p => p.1 = id) with
  | none => none
  | some p => some p.2

/-- Replace the entry for block index `id` by `bd`. -/
def fdSet (blocks : List (Nat × BlockData)) (id : Nat) (bd : BlockData) :
    List (Nat × BlockData) :=
  blocks.map (fun p => if p.1 = id then (p.1, bd) else p)

/-- `addBlockToObjectData(location, isABlk, isCnBatch, row, tid, blockID,
blockType, &objectsData)` (backup.go:98-139): create the `fileData` /
`blockData` entries on first sight of an (object, block) key, otherwise
append the metadata row index to the insert-side or delete-side row
list. -/
def addBlockToObjectData (location : Loc) (isABlk isCnBatch : Bool)
    (row : Nat) (tid : Nat) (blockID : Blockid) (blockType : DataMetaType)
    (od : ObjectsData) : ObjectsData :=
  let name := location.name
  let od :=
    match odLookup od name with
    | none =>
        od ++ [(name, { name := name, data := [], isChange := false,
                        isDeleteBatch := isCnBatch, isABlock := isABlk })]
    | some _ => od
  match odLookup od name with
  | none => od
  | some fd =>
    match fdLookup fd.data location.id with
    | none =>
        let bd : BlockData :=
          { num := location.id, location := location, blockType := blockType,
            isABlock := isABlk, tid := tid, blockId := blockID,
            sortKey := maxUint16,
            deleteRow := if isCnBatch then [row] else [],
            insertRow := if isCnBatch then [] else [row],
            data := none, tombstone := none }
        odSet od name { fd with data := fd.data ++ [(location.id, bd)] }
    | some bd =>
        let bd :=
          if isCnBatch then { bd with deleteRow := bd.deleteRow ++ [row] }
          else { bd with insertRow := bd.insertRow ++ [row] }
        odSet od name { fd with data := fdSet fd.data location.id bd }

/-- Result of a Go function call that can `panic` (process abort), return
an error, or succeed.  Panics and returned errors are distinct outcomes. -/
inductive Outcome (α : Type) where
  | panicked (msg : String)
  | failed (msg : String)
  | ok (a : α)
deriving DecidableEq

/-- One row of a block-metadata table (`BLKMetaInsertIDX` /
`BLKCNMetaInsertIDX`), restricted to the columns the rewrite reads or
writes: row id, block id, `EntryState` (appendable flag), `Sorted`,
segment id, `MetaLoc`, `DeltaLoc`, `CommitTs`, and an opaque payload for
all other columns.  An empty location cell is `none`. -/
structure MetaRow where
  rowID : RowId
  blockID : Blockid
  entryState : Bool
  sorted : Bool
  segmentID : Nat
  metaLoc : Option Loc
  deltaLoc : Option Loc
  commitTs : TS
  payload : Nat
deriving DecidableEq

/-- One row of a transaction-attribution table (`BLKMetaInsertTxnIDX` /
`BLKMetaDeleteTxnIDX`): table id (`SnapshotAttr_TID`), the location
columns the rewrite updates, and an opaque payload. -/
structure TxnRow where
  tid : Nat
  metaLoc : Option Loc
  deltaLoc : Option Loc
  payload : Nat
deriving DecidableEq

/-- Default row used to model Go's out-of-range slice access sites (which
would panic; they are never reached on well-formed checkpoints where the
paired tables have equal lengths). -/
def defaultTxnRow : TxnRow :=
  { tid := 0, metaLoc := none, deltaLoc := none, payload := 0 }

/-- Default metadata row, same role as `defaultTxnRow`. -/
def defaultMetaRow : MetaRow :=
  { rowID := { blockId := { segment := 0, fileNum := 0, blkNum := 0 }, offset := 0 },
    blockID := { segment := 0, fileNum := 0, blkNum := 0 },
    entryState := false, sorted := false, segmentID := 0,
    metaLoc := none, deltaLoc := none, commitTs := 0, payload := 0 }

/-- The checkpoint's metadata tables touched by the rewrite
(`data.bats[...]`): the delete-side block table (`BLKCNMetaInsertIDX`)
with its attribution table (`BLKMetaDeleteTxnIDX`), the live-insert block
table (`BLKMetaInsertIDX`) with its attribution table
(`BLKMetaInsertTxnIDX`), and the delete table (`BLKMetaDeleteIDX`, whose
rows the rewrite only deletes and compacts, modelled opaquely). -/
structure CheckpointData where
  cnMetaInsert : List MetaRow
  metaDelTxn : List TxnRow
  metaInsert : List MetaRow
  metaInsTxn : List TxnRow
  metaDelete : List Nat
deriving DecidableEq

/-- Result of `writer.Sync`: success with an extent, the distinguishable
`moerr.ErrFileAlreadyExists`, or any other error. -/
inductive SyncResult where
  | ok (extent : Nat)
  | errExists
  | errOther (msg : String)
deriving DecidableEq

/-- Oracles for the external collaborators: block reads
(`blockio.LoadOneBlock`), block metadata reads
(`objectio.FastLoadObjectMeta`), the external in-place sort
(`mergesort.SortBlockColumns`), write completion (`writer.Sync`, keyed by
destination name and attempt number), destination deletion (`fs.Delete`),
and the final checkpoint persist (`data.WriteTo`).  These are inputs to
the model; the algorithm under verification never constructs them. -/
structure Env where
  loadBlock : Loc → DataMetaType → Batch
  metaAppendable : Loc → Bool
  metaSortKey : Loc → Nat
  sortBlock : Nat → Batch → Batch
  sync : ObjectName → Nat → SyncResult
  delete : ObjectName → Option String
  writeTo : CheckpointData → Loc × Loc × List String

/-- The soft-delete set `map[string]map[uint16]bool`: object name to block
indices already reconciled by a previous pass. -/
abbrev SoftDeletes := List (ObjectName × List Nat)

/-- `softDeletes[name] != nil && softDeletes[name][id]`. -/
def sdLookup (sd : SoftDeletes) (name : ObjectName) (id : Nat) : Bool :=
  match sd.find? (fun p => p.1 = name) with
  | none => false
  | some p => id ∈ p.2

/-- `(*softDeletes)[name][id] = true` (creating the inner map if absent),
as done by `LoadCheckpointEntriesFromKey` (backup.go:792-797). -/
def sdInsert (sd : SoftDeletes) (name : ObjectName) (id : Nat) : SoftDeletes :=
  match sd.find? (fun p => p.1 = name) with
  | none => sd ++ [(name, [id])]
  | some _ =>
      sd.map (fun p =>
        if p.1 = name then (p.1, if id ∈ p.2 then p.2 else p.2 ++ [id]) else p)

/-- The soft-delete population side effect of
`LoadCheckpointEntriesFromKey` (backup.go:785-802): for every delete-side
metadata row with a non-empty `MetaLoc`, mark (object name, block index)
in the soft-delete set. -/
def loadSoftDeletes (data : CheckpointData) (sd : SoftDeletes) : SoftDeletes :=
  data.cnMetaInsert.foldl
    (fun sd row =>
      match row.metaLoc with
      | some ml => sdInsert sd ml.name ml.id
      | none => sd)
    sd

/-- Link the tombstone block as the data block's `tombstone` field
(backup.go:401-403).  The Go pointer assignment is modelled by storing the
target's (object name, block index) key. -/
def setTombstoneLink (od : ObjectsData) (ml dl : Loc) : ObjectsData :=
  match odLookup od ml.name with
  | none => od
  | some fd =>
    match fdLookup fd.data ml.id with
    | none => od
    | some bd =>
        odSet od ml.name
          { fd with data := fdSet fd.data ml.id { bd with tombstone := some (dl.name, dl.id) } }

/-- The body of the delete-side indexing loop of
`ReWriteCheckpointAndBlockFromKey` for row `i` (backup.go:375-405):
panic when the row's commit timestamp is strictly less than the
watermark; skip the row entirely when its `MetaLoc` is in the soft-delete
set; otherwise index its `DeltaLoc` as a tombstone block and its `MetaLoc`
as a data block, linking the tombstone when the row is appendable. -/
def collectCNRowStep (ts : TS) (sd : SoftDeletes) (delTxn : List TxnRow)
    (i : Nat) (row : MetaRow) (od : ObjectsData) : Outcome ObjectsData :=
  if row.commitTs < ts then Outcome.panicked "commitTs less than ts"
  else if (match row.metaLoc with
           | some ml => sdLookup sd ml.name ml.id
           | none => false) then Outcome.ok od
  else
    let od :=
      match row.deltaLoc with
      | some dl =>
          addBlockToObjectData dl row.entryState true i
            (delTxn.getD i defaultTxnRow).tid row.blockID
            DataMetaType.schemaTombstone od
      | none => od
    let od :=
      match row.metaLoc with
      | some ml =>
          let od :=
            addBlockToObjectData ml row.entryState true i
              (delTxn.getD i defaultTxnRow).tid row.blockID
              DataMetaType.schemaData od
          match row.deltaLoc with
          | some dl => if row.entryState then setTombstoneLink od ml dl else od
          | none => od
      | none => od
    Outcome.ok od

/-- The delete-side indexing loop, rows processed in ascending order. -/
def collectCNLoop (ts : TS) (sd : SoftDeletes) (delTxn : List TxnRow) :
    Nat → List MetaRow → ObjectsData → Outcome ObjectsData
  | _, [], od => Outcome.ok od
  | i, r :: rest, od =>
      match collectCNRowStep ts sd delTxn i r od with
      | Outcome.panicked m => Outcome.panicked m
      | Outcome.failed m => Outcome.failed m
      | Outcome.ok od => collectCNLoop ts sd delTxn (i + 1) rest od

/-- The body of the live-insert indexing loop for row `i`
(backup.go:407-424): panic when the inserted row is flagged appendable;
otherwise index its `MetaLoc` as a data block and its `DeltaLoc` as a
tombstone block. -/
def collectInsRowStep (insTxn : List TxnRow) (i : Nat) (row : MetaRow)
    (od : ObjectsData) : Outcome ObjectsData :=
  if row.entryState then Outcome.panicked "The inserted block is an ablock"
  else
    let od :=
      match row.metaLoc with
      | some ml =>
          addBlockToObjectData ml row.entryState false i
            (insTxn.getD i defaultTxnRow).tid row.blockID
            DataMetaType.schemaData od
      | none => od
    let od :=
      match row.deltaLoc with
      | some dl =>
          addBlockToObjectData dl row.entryState false i
            (insTxn.getD i defaultTxnRow).tid row.blockID
            DataMetaType.schemaTombstone od
      | none => od
    Outcome.ok od

/-- The live-insert indexing loop, rows processed in ascending order. -/
def collectInsLoop (insTxn : List TxnRow) :
    Nat → List MetaRow → ObjectsData → Outcome ObjectsData
  | _, [], od => Outcome.ok od
  | i, r :: rest, od =>
      match collectInsRowStep insTxn i r od with
      | Outcome.panicked m => Outcome.panicked m
      | Outcome.failed m => Outcome.failed m
      | Outcome.ok od => collectInsLoop insTxn (i + 1) rest od

/-- Phase 2 of `ReWriteCheckpointAndBlockFromKey` (backup.go:352-424):
index the delete-side table, then the live-insert table. -/
def collectObjects (ts : TS) (sd : SoftDeletes) (data : CheckpointData) :
    Outcome ObjectsData :=
  match collectCNLoop ts sd data.metaDelTxn 0 data.cnMetaInsert [] with
  | Outcome.panicked m => Outcome.panicked m
  | Outcome.failed m => Outcome.failed m
  | Outcome.ok od => collectInsLoop data.metaInsTxn 0 data.metaInsert od

/-- The tombstone scan of `trimObjectsData` (backup.go:157-179): walk the
rows; a row whose commit timestamp is greater than `ts` is excluded and
flips the change flag, any other row is kept (its index goes into the Go
`deleteRow` kept-list, and `Shrink` keeps exactly the listed rows in
order).  Returns the kept rows and the change flag. -/
def tombstoneScan (ts : TS) : Batch → Batch × Bool
  | [] => ([], false)
  | r :: rest =>
      let s := tombstoneScan ts rest
      if ts < r.commitTs then (s.1, true) else (r :: s.1, s.2)

/-- The data-block scan of `trimObjectsData` (backup.go:193-206): walk the
rows in physical order; at the first row whose commit timestamp is greater
than `ts`, the batch is windowed to the rows strictly before it
(`windowCNBatch(bat, 0, v)`), the change flag is set and the scan stops;
if no row exceeds `ts` the batch is left whole. -/
def dataScan (ts : TS) : Batch → Batch × Bool
  | [] => ([], false)
  | r :: rest =>
      if ts < r.commitTs then ([], true)
      else
        let s := dataScan ts rest
        (r :: s.1, s.2)

/-- The per-block body of `trimObjectsData` (backup.go:150-211): sealed
data blocks are skipped untouched; tombstone blocks are loaded and
row-filtered against the watermark (shrunk only when a row was excluded);
appendable data blocks read the declared sort key from the object
metadata, are loaded, and are truncated at the first row past the
watermark.  Returns the updated block and its change flag. -/
def trimBlockEntry (env : Env) (ts : TS) (b : BlockData) : BlockData × Bool :=
  if !b.isABlock && b.blockType = DataMetaType.schemaData then (b, false)
  else if b.blockType = DataMetaType.schemaTombstone then
    let bat := env.loadBlock b.location DataMetaType.schemaTombstone
    let s := tombstoneScan ts bat
    let bat' := if s.1.length ≠ bat.length then s.1 else bat
    ({ b with data := some (formatData bat') }, s.2)
  else
    let sortKey :=
      if env.metaAppendable b.location then env.metaSortKey b.location
      else maxUint16
    let bat := env.loadBlock b.location DataMetaType.schemaData
    let s := dataScan ts bat
    ({ b with data := some (formatData s.1), sortKey := sortKey }, s.2)

/-- The per-object body of `trimObjectsData`: trim every block, OR the
per-block change flags into the object's `isChange`. -/
def trimFileData (env : Env) (ts : TS) (fd : FileData) : FileData × Bool :=
  let step := fd.data.map (fun p => (p.1, trimBlockEntry env ts p.2))
  let isChange := step.any (fun p => p.2.2)
  ({ fd with data := step.map (fun p => (p.1, p.2.1)), isChange := isChange },
   isChange)

/-- `trimObjectsData(ctx, fs, ts, &objectsData)` (backup.go:141-215):
trim every object; the returned flag (`isCkpChange`) is set iff some row
of some block was excluded. -/
def trimObjectsData (env : Env) (ts : TS) (od : ObjectsData) :
    ObjectsData × Bool :=
  let step := od.map (fun p => (p.1, trimFileData env ts p.2))
  (step.map (fun p => (p.1, p.2.1)), step.any (fun p => p.2.2))

/-- `applyDelete(dataBatch, deleteBatch, id)` (backup.go:217-239): no-op
when the tombstone batch is absent; otherwise decode each tombstone row's
row id into (owning block id, row offset), build the set of offsets whose
owning block matches `id`, and remove exactly those offsets from across
the data batch (`AntiShrink`).  The Go `id` parameter is
`blockId.String()`; `String()` being injective, the model compares the
block ids themselves.  The Go function has no failing path and always
returns a nil error. -/
def applyDelete (dataBatch : Batch) (deleteBatch : Option Batch)
    (id : Blockid) : Except String Batch :=
  match deleteBatch with
  | none => Except.ok dataBatch
  | some del =>
      let rows : Nat → Bool := fun ro =>
        del.any (fun r => r.rowid.blockId = id && r.rowid.offset = ro)
      let deleteRow := (List.range dataBatch.length).filter (fun i => rows i)
      Except.ok (antiShrink dataBatch deleteRow)

/-- Update element `i` of a list in place; Go's `Vector.Update` at a valid
row.  (Go would panic out of range; every call site uses a row index that
was just appended or read from the same table.) -/
def listModify {α : Type} : List α → Nat → (α → α) → List α
  | [], _, _ => []
  | x :: xs, 0, f => f x :: xs
  | x :: xs, n + 1, f => x :: listModify xs n f

/-- `updateBlockMeta(blkMeta, blkMetaTxn, row, blockID, location, sort)`
(backup.go:241-282): overwrite the appended promotion row's identity and
location columns — row id from the new block id, block id, entry-state
false, sorted flag, segment id from the new block id, meta-location set to
the new location, delta-location set to null; the attribution table's
meta-location is set and its delta-location nulled likewise. -/
def updateBlockMeta (blkMeta : List MetaRow) (blkMetaTxn : List TxnRow)
    (row : Nat) (blockID : Blockid) (location : Loc) (srt : Bool) :
    List MetaRow × List TxnRow :=
  (listModify blkMeta row (fun r =>
      { r with rowID := hackBlockid2Rowid blockID,
               blockID := blockID,
               entryState := false,
               sorted := srt,
               segmentID := blockID.segment,
               metaLoc := some location,
               deltaLoc := none }),
   listModify blkMetaTxn row (fun r =>
      { r with metaLoc := some location, deltaLoc := none }))

/-- `insertBlock` (backup.go:63-69): one pending promotion.  The Go
zero-value `location` (empty) is `none`; `data` is the carried block
descriptor (set only on the merge path, nil on the appendable-promotion
path). -/
structure InsertBlock where
  blockId : Blockid
  location : Option Loc
  deleteRow : Nat
  apply : Bool
  data : Option BlockData
deriving DecidableEq

/-- `map[uint64]*iBlocks`: pending promotions keyed by table id. -/
abbrev IBMap := List (Nat × List InsertBlock)

/-- `if insertBatch[tid] == nil { insertBatch[tid] = &iBlocks{...} };
append(insertBatch[tid].insertBlocks, ib)`. -/
def ibAppend (m : IBMap) (tid : Nat) (ib : InsertBlock) : IBMap :=
  match m.find? (fun p => p.1 = tid) with
  | none => m ++ [(tid, [ib])]
  | some _ => m.map (fun p => if p.1 = tid then (p.1, p.2 ++ [ib]) else p)

/-- Zero-valued `blockData`, standing in for Go's out-of-range slice reads
(which would panic and are unreachable on the paths taken). -/
def defaultBlockData : BlockData :=
  { num := 0, deleteRow := [], insertRow := [],
    blockType := DataMetaType.schemaData,
    location := { name := { segment := 0, num := 0 }, id := 0, extent := 0, rows := 0 },
    data := none, sortKey := 0, isABlock := false,
    blockId := { segment := 0, fileNum := 0, blkNum := 0 }, tid := 0,
    tombstone := none }

/-- Insertion step of the block sort. -/
def insertByNum (b : BlockData) : List BlockData → List BlockData
  | [] => [b]
  | x :: xs => if b.num < x.num then b :: x :: xs else x :: insertByNum b xs

/-- `sort.Slice(dataBlocks, func(i, j) { return num[i] < num[j] })`
(backup.go:453-455); block indices within one object are distinct, so the
result is the unique ascending ordering. -/
def sortBlocksByNum (l : List BlockData) : List BlockData :=
  l.foldr insertByNum []

/-- State threaded through the rewrite loop (phase 4): the written-file
list, the pending promotions, the checkpoint tables, and the trace of
object-file write attempts (one entry per `writer.Sync` call, used to
state "no object file was rewritten"). -/
structure P4State where
  files : List ObjectName
  insertBatch : IBMap
  data : CheckpointData
  trace : List ObjectName

/-- The in-place write's completion with single retry (backup.go:483-496):
a first `Sync`; on `ErrFileAlreadyExists`, delete the stale destination
and `Sync` exactly once more; any other first error, a delete failure, or
any second error fails the rewrite.  Returns the extent and the attempted
destinations. -/
def syncWithRetry (env : Env) (fileName : ObjectName) :
    Outcome (Nat × List ObjectName) :=
  match env.sync fileName 1 with
  | SyncResult.ok e => Outcome.ok (e, [fileName])
  | SyncResult.errExists =>
      match env.delete fileName with
      | some m => Outcome.failed m
      | none =>
          match env.sync fileName 2 with
          | SyncResult.ok e => Outcome.ok (e, [fileName, fileName])
          | SyncResult.errExists => Outcome.failed "file already exists"
          | SyncResult.errOther m => Outcome.failed m
  | SyncResult.errOther m => Outcome.failed m

/-- The location fix-ups of the rewrite loop's final branch
(backup.go:574-626) for block `i` of the object: recompute the block
location from the fresh extent when the object was rewritten in place,
then write it into the live-insert tables (insert-side rows: meta-location
for data blocks, delta-location for tombstone blocks) and into the
delete-side tables (meta-location only for appendable data blocks,
delta-location for tombstone blocks). -/
def fixupBlock (objectData : FileData) (blocks : List Nat) (extent : Nat)
    (i : Nat) (blk : BlockData) (d : CheckpointData) : CheckpointData :=
  let blockLocation :=
    if objectData.isChange then
      buildLocation objectData.name extent (blocks.getD i 0) blk.num
    else blk.location
  let d := blk.insertRow.foldl
    (fun d insertRow =>
      let d :=
        if blk.blockType = DataMetaType.schemaData then
          { d with
            metaInsert := listModify d.metaInsert insertRow
              (fun r => { r with metaLoc := some blockLocation }),
            metaInsTxn := listModify d.metaInsTxn insertRow
              (fun r => { r with metaLoc := some blockLocation }) }
        else d
      if blk.blockType = DataMetaType.schemaTombstone then
        { d with
          metaInsert := listModify d.metaInsert insertRow
            (fun r => { r with deltaLoc := some blockLocation }),
          metaInsTxn := listModify d.metaInsTxn insertRow
            (fun r => { r with deltaLoc := some blockLocation }) }
      else d)
    d
  blk.deleteRow.foldl
    (fun d deleteRow =>
      let d :=
        if blk.blockType = DataMetaType.schemaData && blk.isABlock then
          { d with
            cnMetaInsert := listModify d.cnMetaInsert deleteRow
              (fun r => { r with metaLoc := some blockLocation }),
            metaDelTxn := listModify d.metaDelTxn deleteRow
              (fun r => { r with metaLoc := some blockLocation }) }
        else d
      if blk.blockType = DataMetaType.schemaTombstone then
        { d with
          cnMetaInsert := listModify d.cnMetaInsert deleteRow
            (fun r => { r with deltaLoc := some blockLocation }),
          metaDelTxn := listModify d.metaDelTxn deleteRow
            (fun r => { r with deltaLoc := some blockLocation }) }
      else d)
    d

/-- All fix-ups for one object, blocks in ascending index order. -/
def fixupObject (objectData : FileData) (dataBlocks : List BlockData)
    (blocks : List Nat) (extent : Nat) (d : CheckpointData) : CheckpointData :=
  dataBlocks.enum.foldl (fun d p => fixupBlock objectData blocks extent p.1 p.2 d) d

/-- The promotion and merge branch of the rewrite loop
(backup.go:499-572), reached for a delete-batch object whose block 0 is a
data block.  Non-appendable objects queue every block as a merge-path
promotion.  Appendable objects: panic on more than two blocks; apply the
paired tombstone; sort by the declared sort key; strip the three
bookkeeping columns (a column-level operation — row count and order are
preserved, so it is the identity on the row model); write the result as a
new sealed block under the derived name, panicking on any write failure;
and queue the relocation. -/
def promoteObject (env : Env) (odAll : ObjectsData) (objectData : FileData)
    (dataBlocks : List BlockData) (st : P4State) : Outcome P4State :=
  if !objectData.isABlock then
    let firstTid := (dataBlocks.headD defaultBlockData).tid
    let st :=
      { st with insertBatch :=
          (dataBlocks.foldl
            (fun m dt =>
              ibAppend m firstTid
                { apply := false,
                  deleteRow := dt.deleteRow.getLastD 0,
                  data := some dt, location := none,
                  blockId := { segment := 0, fileNum := 0, blkNum := 0 } })
            st.insertBatch) }
    Outcome.ok st
  else if dataBlocks.length > 2 then
    Outcome.panicked "dataBlocks len > 2"
  else
    let d0 := dataBlocks.headD defaultBlockData
    let tombBat : Option Batch :=
      match (fdLookup objectData.data 0).bind (fun b => b.tombstone) with
      | some key =>
          (odLookup odAll key.1).bind (fun fd => (fdLookup fd.data key.2).bind (fun b => b.data))
      | none => none
    let afterDel :=
      match (fdLookup objectData.data 0).bind (fun b => b.tombstone) with
      | some _ =>
          match applyDelete (d0.data.getD []) tombBat d0.blockId with
          | Except.ok bat => bat
          | Except.error _ => d0.data.getD []
      | none => d0.data.getD []
    let sorted :=
      if d0.sortKey ≠ maxUint16 then env.sortBlock d0.sortKey afterDel
      else afterDel
    let stripped := sorted
    let fileNum := 1000 + d0.location.name.num
    let segment := d0.location.name.segment
    let name := buildObjectName segment fileNum
    match env.sync name 1 with
    | SyncResult.ok extent =>
        let rows0 := stripped.length
        let blockLocation := buildLocation name extent rows0 0
        let ib : InsertBlock :=
          { location := some blockLocation,
            blockId := buildObjectBlockid name 0,
            apply := false,
            deleteRow := d0.deleteRow.getD 0 0,
            data := none }
        Outcome.ok
          { st with
            trace := st.trace ++ [name],
            files := st.files ++ [name],
            insertBatch := ibAppend st.insertBatch d0.tid ib }
    | SyncResult.errExists => Outcome.panicked "sync error"
    | SyncResult.errOther _ => Outcome.panicked "sync error"

/-- One iteration of the rewrite loop (backup.go:443-627) for object
`fileName`: skip unchanged non-delete-batch objects; write the object in
place (clearing its delete-batch mark) when it was changed by the trim or
its first block is a tombstone batch; then either queue promotions (for a
still-pending delete-batch object whose block 0 holds data) or fix the
block locations up in the metadata tables. -/
def processObject (env : Env) (odAll : ObjectsData) (fileName : ObjectName)
    (objectData : FileData) (st : P4State) : Outcome (FileData × P4State) :=
  if !objectData.isChange && !objectData.isDeleteBatch then
    Outcome.ok (objectData, st)
  else
    let dataBlocks := sortBlocksByNum (objectData.data.map Prod.snd)
    let branch1 :=
      objectData.isChange &&
        (!objectData.isDeleteBatch ||
          (match fdLookup objectData.data 0 with
           | some b => b.blockType = DataMetaType.schemaTombstone
           | none => false))
    let afterWrite : Outcome (FileData × List Nat × Nat × P4State) :=
      if branch1 then
        let objectData := { objectData with isDeleteBatch := false }
        match syncWithRetry env fileName with
        | Outcome.panicked m => Outcome.panicked m
        | Outcome.failed m => Outcome.failed m
        | Outcome.ok (extent, attempts) =>
            let blocks := dataBlocks.map (fun b => (b.data.getD []).length)
            Outcome.ok (objectData, blocks, extent,
              { st with trace := st.trace ++ attempts })
      else Outcome.ok (objectData, [], 0, st)
    match afterWrite with
    | Outcome.panicked m => Outcome.panicked m
    | Outcome.failed m => Outcome.failed m
    | Outcome.ok (objectData, blocks, extent, st) =>
        let cond2 :=
          objectData.isDeleteBatch &&
            (match fdLookup objectData.data 0 with
             | some b => !(b.blockType = DataMetaType.schemaTombstone)
             | none => false)
        if cond2 then
          match promoteObject env odAll objectData dataBlocks st with
          | Outcome.panicked m => Outcome.panicked m
          | Outcome.failed m => Outcome.failed m
          | Outcome.ok st => Outcome.ok (objectData, st)
        else
          let d := fixupObject objectData dataBlocks blocks extent st.data
          Outcome.ok (objectData, { st with data := d })

/-- The rewrite loop over all indexed objects.  (The Go loop ranges over a
map in unspecified order; the association-list order determinizes it, and
none of the proved properties depend on the order.) -/
def processObjects (env : Env) (odAll : ObjectsData) :
    List (ObjectName × FileData) → P4State → Outcome P4State
  | [], st => Outcome.ok st
  | (n, fd) :: rest, st =>
      match processObject env odAll n fd st with
      | Outcome.panicked m => Outcome.panicked m
      | Outcome.failed m => Outcome.failed m
      | Outcome.ok (_, st) => processObjects env odAll rest st

/-- Application of one pending promotion (the body repeated at
backup.go:639-661 and backup.go:666-689): skip if already applied;
otherwise append the delete-side metadata row and its attribution row (by
the recorded row index) to the replacement tables, and — when the
promotion carries a non-empty new location — overwrite the newly appended
row via `updateBlockMeta`, with the sorted flag cleared for an appendable
merge source lacking a sort key.  Marks the promotion applied. -/
def applyIB (cn : List MetaRow) (delTxn : List TxnRow)
    (acc : List MetaRow × List TxnRow) (ib : InsertBlock) :
    (List MetaRow × List TxnRow) × InsertBlock :=
  if ib.apply then (acc, ib)
  else
    let blkMeta := acc.1 ++ [cn.getD ib.deleteRow defaultMetaRow]
    let blkMetaTxn := acc.2 ++ [delTxn.getD ib.deleteRow defaultTxnRow]
    let row := blkMeta.length - 1
    match ib.location with
    | some l =>
        let srt := !(match ib.data with
                     | some bd => bd.isABlock && bd.sortKey = maxUint16
                     | none => false)
        (updateBlockMeta blkMeta blkMetaTxn row ib.blockId l srt,
         { ib with apply := true })
    | none => ((blkMeta, blkMetaTxn), { ib with apply := true })

/-- Apply a table's pending promotions in order. -/
def applyIBList (cn : List MetaRow) (delTxn : List TxnRow) :
    (List MetaRow × List TxnRow) → List InsertBlock →
    (List MetaRow × List TxnRow) × List InsertBlock
  | acc, [] => (acc, [])
  | acc, ib :: rest =>
      let r1 := applyIB cn delTxn acc ib
      let r2 := applyIBList cn delTxn r1.1 rest
      (r2.1, r1.2 :: r2.2)

/-- First reconciliation pass (backup.go:634-663): copy every live-insert
row (with its attribution row) into the replacement tables in order; at
each row, apply all not-yet-applied promotions recorded for that row's
table id. -/
def reconcileFirstPass (cn : List MetaRow) (delTxn insTxn : List TxnRow) :
    Nat → List MetaRow → (List MetaRow × List TxnRow) → IBMap →
    (List MetaRow × List TxnRow) × IBMap
  | _, [], acc, m => (acc, m)
  | i, r :: rest, acc, m =>
      let tid := (insTxn.getD i defaultTxnRow).tid
      let acc := (acc.1 ++ [r], acc.2 ++ [insTxn.getD i defaultTxnRow])
      match m.find? (fun p => p.1 = tid) with
      | none => reconcileFirstPass cn delTxn insTxn (i + 1) rest acc m
      | some p =>
          let res := applyIBList cn delTxn acc p.2
          let m := m.map (fun q => if q.1 = tid then (q.1, res.2) else q)
          reconcileFirstPass cn delTxn insTxn (i + 1) rest res.1 m

/-- Second reconciliation pass (backup.go:665-690): apply every promotion
left unapplied (table ids absent from the live-insert table). -/
def reconcileSecondPass (cn : List MetaRow) (delTxn : List TxnRow) :
    IBMap → (List MetaRow × List TxnRow) →
    (List MetaRow × List TxnRow) × IBMap
  | [], acc => (acc, [])
  | (tid, ibs) :: rest, acc =>
      let r1 := applyIBList cn delTxn acc ibs
      let r2 := reconcileSecondPass cn delTxn rest r1.1
      (r2.1, (tid, r1.2) :: r2.2)

/-- The delete-side rows removed by the compaction loop
(backup.go:692-702): for every promotion that carries block data (only the
merge-path promotions do), all of that block's recorded delete-side row
indices. -/
def collectDeleteRows (m : IBMap) : List Nat :=
  m.foldl
    (fun acc p =>
      p.2.foldl
        (fun acc ib =>
          match ib.data with
          | some bd => acc ++ bd.deleteRow
          | none => acc)
        acc)
    []

/-- `Delete` of the listed rows followed by `Compact`: remove exactly the
listed row indices, keeping the rest in order. -/
def compactRows {α : Type} (l : List α) (del : List Nat) : List α :=
  (l.enum.filter (fun p => decide (p.1 ∉ del))).map Prod.snd

/-- Phase 5, metadata reconciliation (backup.go:631-740): when any
promotion is pending, rebuild the live-insert table and its attribution
table through the two passes, remove the merge-path promotions' recorded
rows from the three delete-side tables, and install the replacement
tables.  (The per-table row-range index recomputed at backup.go:707-735
lives in checkpoint metadata outside the modelled tables.)  With no
pending promotion the tables are untouched. -/
def reconcileInsertBatch (m : IBMap) (d : CheckpointData) : CheckpointData :=
  if m.length > 0 then
    let fp := reconcileFirstPass d.cnMetaInsert d.metaDelTxn d.metaInsTxn 0
      d.metaInsert ([], []) m
    let sp := reconcileSecondPass d.cnMetaInsert d.metaDelTxn fp.2 fp.1
    let del := collectDeleteRows sp.2
    { d with
      cnMetaInsert := compactRows d.cnMetaInsert del,
      metaDelTxn := compactRows d.metaDelTxn del,
      metaDelete := compactRows d.metaDelete del,
      metaInsert := sp.1.1,
      metaInsTxn := sp.1.2 }
  else d

/-- Rendering of `ObjectName.String()` for the returned file list. -/
def objectNameStr (n : ObjectName) : String :=
  String.intercalate "_" [toString n.segment, toString n.num]

/-- `ReWriteCheckpointAndBlockFromKey(ctx, fs, dstFs, loc, tnLocation,
version, ts, softDeletes)` (backup.go:309-754): index the checkpoint's
metadata rows into per-object block descriptors (panicking on the two
invariant violations), trim them against the watermark, return the
original locations with an empty file list when nothing changed, otherwise
run the rewrite loop, reconcile the pending promotions, persist the
checkpoint and return the new locations together with the file list.  The
last component of the result is the trace of object-file write attempts
(empty iff no object file was written). -/
def ReWriteCheckpointAndBlockFromKey (env : Env) (data : CheckpointData)
    (loc tnLocation : Loc) (ts : TS) (softDeletes : SoftDeletes) :
    Outcome (Loc × Loc × List String × CheckpointData × List ObjectName) :=
  match collectObjects ts softDeletes data with
  | Outcome.panicked m => Outcome.panicked m
  | Outcome.failed m => Outcome.failed m
  | Outcome.ok od =>
      let tr := trimObjectsData env ts od
      if !tr.2 then Outcome.ok (loc, tnLocation, [], data, [])
      else
        match processObjects env tr.1 tr.1
            { files := [], insertBatch := [], data := data, trace := [] } with
        | Outcome.panicked m => Outcome.panicked m
        | Outcome.failed m => Outcome.failed m
        | Outcome.ok st =>
            let d2 := reconcileInsertBatch st.insertBatch st.data
            let w := env.writeTo d2
            let files := (st.files.map objectNameStr) ++ w.2.2 ++
              [objectNameStr w.1.name]
            Outcome.ok (w.1, w.2.1, files, d2, st.trace)

/-! ## Measures over the promotion map, used to state the accounting
properties of the reconciliation phase -/

/-- Number of promotions in a table's list not yet applied. -/
def unappliedCount (ibs : List InsertBlock) : Nat :=
  (ibs.filter (fun ib => !ib.apply)).length

/-- Number of promotions over the whole map not yet applied. -/
def unappliedTotal (m : IBMap) : Nat :=
  (m.map (fun p => unappliedCount p.2)).sum

/-- Total number of promotions recorded in the map. -/
def ibTotal (m : IBMap) : Nat :=
  (m.map (fun p => p.2.length)).sum

/-- Mark every promotion of a list applied. -/
def setApplied (ibs : List InsertBlock) : List InsertBlock :=
  ibs.map (fun ib => { ib with apply := true })

/-- The delete-side row indices carried by one table's promotions (only
those carrying block data contribute). -/
def entryDeleteRows : List InsertBlock → List Nat
  | [] => []
  | ib :: rest =>
      (match ib.data with
       | some bd => bd.deleteRow
       | none => []) ++ entryDeleteRows rest

/-- The delete-side row indices carried by the whole map's merge-path
promotions. -/
def mergeDeleteRows (m : IBMap) : List Nat :=
  (m.map (fun p => entryDeleteRows p.2)).join

/-! ## Concrete instances used by witnesses and counterexamples -/

/-- A concrete object name. -/
def wName : ObjectName := { segment := 3, num := 4 }

/-- A second concrete object name. -/
def wName2 : ObjectName := { segment := 5, num := 6 }

/-- Concrete locations inside `wName`. -/
def wLoc (i : Nat) : Loc := { name := wName, id := i, extent := 2, rows := 3 }

/-- A concrete block id. -/
def wBid : Blockid := { segment := 3, fileNum := 4, blkNum := 0 }

/-- A batch row committed at `t`. -/
def wRow (t : TS) : BatchRow :=
  { rowid := { blockId := wBid, offset := 0 }, commitTs := t, payload := 0 }

/-- A batch row of block `b` at offset `o`, committed at `t`. -/
def wRowAt (b : Blockid) (o : Nat) (t : TS) : BatchRow :=
  { rowid := { blockId := b, offset := o }, commitTs := t, payload := 0 }

/-- A benign oracle: the tombstone batch holds rows committed at 4 and 6,
the data batch rows committed at 2 and 7; all writes succeed. -/
def wEnv : Env :=
  { loadBlock := fun _ k =>
      if k = DataMetaType.schemaTombstone then [wRow 4, wRow 6]
      else [wRow 2, wRow 7],
    metaAppendable := fun _ => true,
    metaSortKey := fun _ => 1,
    sortBlock := fun _ b => b,
    sync := fun _ _ => SyncResult.ok 7,
    delete := fun _ => none,
    writeTo := fun _ => (wLoc 0, wLoc 1, ["ckp"]) }

/-- A concrete tombstone block descriptor. -/
def wTomb : BlockData :=
  { num := 0, deleteRow := [0], insertRow := [],
    blockType := DataMetaType.schemaTombstone, location := wLoc 0,
    data := none, sortKey := maxUint16, isABlock := false,
    blockId := wBid, tid := 11, tombstone := none }

/-- A concrete appendable data block descriptor. -/
def wABlk : BlockData :=
  { wTomb with blockType := DataMetaType.schemaData, isABlock := true, num := 1,
               location := wLoc 1 }

/-- A concrete sealed data block descriptor. -/
def wSealed : BlockData :=
  { wTomb with blockType := DataMetaType.schemaData, isABlock := false, num := 2,
               location := wLoc 2 }

/-- A concrete object holding the three blocks above. -/
def wFd : FileData :=
  { name := wName, isDeleteBatch := false, isChange := false, isABlock := false,
    data := [(0, wTomb), (1, wABlk), (2, wSealed)] }

/-- A one-object map. -/
def wOd : ObjectsData := [(wName, wFd)]

/-- An empty checkpoint. -/
def wEmptyData : CheckpointData :=
  { cnMetaInsert := [], metaDelTxn := [], metaInsert := [], metaInsTxn := [],
    metaDelete := [] }

/-- Concrete checkpoint locations. -/
def wCkpLoc : Loc := { name := { segment := 9, num := 1 }, id := 0, extent := 5, rows := 10 }

/-- Concrete tn checkpoint location. -/
def wCkpTn : Loc := { name := { segment := 9, num := 2 }, id := 0, extent := 5, rows := 10 }

/-- A delete-side metadata row whose commit timestamp (3) lies before the
watermark used in the witnesses (5). -/
def wRowLow : MetaRow := { defaultMetaRow with commitTs := 3 }

/-- A checkpoint whose delete-side table holds `wRowLow`. -/
def wDataLow : CheckpointData :=
  { wEmptyData with cnMetaInsert := [wRowLow], metaDelTxn := [defaultTxnRow] }

/-- A live-insert metadata row flagged appendable. -/
def wRowAb : MetaRow := { defaultMetaRow with entryState := true, commitTs := 9 }

/-- A checkpoint whose live-insert table holds `wRowAb`. -/
def wDataAb : CheckpointData :=
  { wEmptyData with metaInsert := [wRowAb], metaInsTxn := [defaultTxnRow] }

/-- A delete-side row pointing at block (wName, 0) with a tombstone at
(wName, 1), committed after the watermark. -/
def wCnRow : MetaRow :=
  { defaultMetaRow with metaLoc := some (wLoc 0), deltaLoc := some (wLoc 1),
                        commitTs := 9 }

/-- A live-insert row pointing at block (wName, 0). -/
def wInsRow : MetaRow :=
  { defaultMetaRow with metaLoc := some (wLoc 0), commitTs := 9 }

/-- A checkpoint whose delete-side table holds `wCnRow` only; feeding it to
`loadSoftDeletes` marks block (wName, 0) soft-deleted. -/
def wDataCN : CheckpointData :=
  { wEmptyData with cnMetaInsert := [wCnRow], metaDelTxn := [defaultTxnRow] }

/-- A checkpoint whose live-insert table holds `wInsRow` only. -/
def wDataIns : CheckpointData :=
  { wEmptyData with metaInsert := [wInsRow], metaInsTxn := [defaultTxnRow] }

/-- A pending promotion of the appendable-block kind: new location set,
no carried block data. -/
def wIbA : InsertBlock :=
  { blockId := wBid, location := some (wLoc 0), deleteRow := 0,
    apply := false, data := none }

/-- A checkpoint with one delete-side row, against which `wIbA` is
reconciled. -/
def wData5 : CheckpointData :=
  { cnMetaInsert := [defaultMetaRow], metaDelTxn := [defaultTxnRow],
    metaInsert := [], metaInsTxn := [], metaDelete := [5] }

/-- An appendable data block at index 0, with loaded rows. -/
def wB0 : BlockData :=
  { wABlk with num := 0, location := wLoc 0, data := some [wRow 2] }

/-- A tombstone block at index 1. -/
def wB1 : BlockData := { wTomb with num := 1, location := wLoc 1 }

/-- An appendable data block at index 2. -/
def wB2 : BlockData := { wABlk with num := 2, location := wLoc 2 }

/-- A delete-batch appendable object carrying three blocks — the promotion
path's fatal shape. -/
def wFd3 : FileData :=
  { name := wName, isDeleteBatch := true, isChange := false, isABlock := true,
    data := [(0, wB0), (1, wB1), (2, wB2)] }

/-- The same object with a single data block — the promotion path's
legitimate shape. -/
def wFd1 : FileData :=
  { wFd3 with data := [(0, wB0)] }

/-- A sealed block holding one loaded row, for the in-place shape. -/
def wSealedLoaded : BlockData :=
  { wSealed with num := 0, location := wLoc 0, data := some [wRow 2] }

/-- A changed, non-delete-batch object (in-place rewrite shape). -/
def wFdIP : FileData :=
  { name := wName, isDeleteBatch := false, isChange := true, isABlock := false,
    data := [(0, wSealedLoaded)] }

/-- An empty phase-4 state over `wData5`. -/
def wSt : P4State :=
  { files := [], insertBatch := [], data := wData5, trace := [] }

/-- An oracle whose first write to any destination reports "already
exists" and whose second write succeeds. -/
def wEnvRetry : Env :=
  { wEnv with sync := fun _ n => if n = 1 then SyncResult.errExists else SyncResult.ok 3 }

/-- An oracle whose writes always fail with a generic error. -/
def wEnvBoom : Env :=
  { wEnv with sync := fun _ _ => SyncResult.errOther "boom" }

/-- An oracle whose first write reports "already exists" and whose retry
fails with a generic error. -/
def wEnvRetryBoom : Env :=
  { wEnv with sync := fun _ n =>
      if n = 1 then SyncResult.errExists else SyncResult.errOther "boom2" }

/-- Observation of a successful outcome. -/
def outcomeIsOk {α : Type} : Outcome α → Bool
  | Outcome.ok _ => true
  | _ => false

/-! ## General lemmas about the embedded operations -/

theorem listModify_length {α : Type} (l : List α) (i : Nat) (f : α → α) :
    (listModify l i f).length = l.length := by
  induction l generalizing i with
  | nil => rfl
  | cons x xs ih =>
      cases i with
      | zero => rfl
      | succ n => simpa [listModify] using ih n

theorem listModify_append_singleton {α : Type} (xs : List α) (x : α) (f : α → α) :
    listModify (xs ++ [x]) xs.length f = xs ++ [f x] := by
  induction xs with
  | nil => rfl
  | cons y ys ih => simpa [listModify] using ih

theorem insertByNum_length (b : BlockData) (l : List BlockData) :
    (insertByNum b l).length = l.length + 1 := by
  induction l with
  | nil => rfl
  | cons x xs ih =>
      by_cases h : b.num < x.num <;> simp [insertByNum, h, ih]

theorem sortBlocksByNum_length (l : List BlockData) :
    (sortBlocksByNum l).length = l.length := by
  induction l with
  | nil => rfl
  | cons x xs ih => simp [sortBlocksByNum, List.foldr] at ih ⊢
                    rw [insertByNum_length, ih]

/-- The tombstone scan keeps exactly the rows at or before the watermark
and reports whether any row was excluded. -/
theorem tombstoneScan_eq (ts : TS) (bat : Batch) :
    tombstoneScan ts bat =
      (bat.filter (fun r => decide (r.commitTs ≤ ts)),
       bat.any (fun r => decide (ts < r.commitTs))) := by
  induction bat with
  | nil => rfl
  | cons r rest ih =>
      by_cases h : ts < r.commitTs
      · have h' : ¬ r.commitTs ≤ ts := Nat.not_le.mpr h
        simp [tombstoneScan, ih, h, h']
      · have h' : r.commitTs ≤ ts := Nat.not_lt.mp h
        simp [tombstoneScan, ih, h, h']

/-- The data scan keeps the longest prefix of rows at or before the
watermark and reports whether any row at all exceeds it. -/
theorem dataScan_eq (ts : TS) (bat : Batch) :
    dataScan ts bat =
      (bat.takeWhile (fun r => decide (r.commitTs ≤ ts)),
       bat.any (fun r => decide (ts < r.commitTs))) := by
  induction bat with
  | nil => rfl
  | cons r rest ih =>
      by_cases h : ts < r.commitTs
      · have h' : ¬ r.commitTs ≤ ts := Nat.not_le.mpr h
        simp [dataScan, h, h', List.takeWhile_cons]
      · have h' : r.commitTs ≤ ts := Nat.not_lt.mp h
        simp [dataScan, ih, h, h', List.takeWhile_cons]

/-- On a batch physically ordered by commit timestamp, truncation at the
first row past the watermark keeps exactly the rows at or before it. -/
theorem takeWhile_eq_filter_of_sorted (ts : TS) (bat : Batch)
    (h : bat.Pairwise (fun a b => a.commitTs ≤ b.commitTs)) :
    bat.takeWhile (fun r => decide (r.commitTs ≤ ts)) =
      bat.filter (fun r => decide (r.commitTs ≤ ts)) := by
  induction bat with
  | nil => rfl
  | cons r rest ih =>
      rcases List.pairwise_cons.mp h with ⟨hr, hrest⟩
      by_cases hle : r.commitTs ≤ ts
      · simp [List.takeWhile_cons, List.filter_cons, hle, ih hrest]
      · have : rest.filter (fun r => decide (r.commitTs ≤ ts)) = [] := by
          refine List.filter_eq_nil_iff.mpr ?_
          intro a ha
          have hra := hr a ha
          simp only [decide_eq_true_eq]
          exact fun hc => hle (le_trans hra hc)
        simp [List.takeWhile_cons, List.filter_cons, hle, this]

/-- A filter that drops nothing returns the batch itself. -/
theorem filter_eq_self_of_no_exclusion (ts : TS) (bat : Batch)
    (h : ∀ r ∈ bat, r.commitTs ≤ ts) :
    bat.filter (fun r => decide (r.commitTs ≤ ts)) = bat :=
  List.filter_eq_self.mpr (fun a ha => by simpa using h a ha)

theorem odLookup_map (od : ObjectsData) (name : ObjectName)
    (f : FileData → FileData) :
    odLookup (od.map (fun p => (p.1, f p.2))) name =
      (odLookup od name).map f := by
  induction od with
  | nil => rfl
  | cons p rest ih =>
      by_cases h : p.1 = name <;> simp [odLookup, List.find?, h] <;>
        simpa [odLookup] using ih

theorem fdLookup_map (blocks : List (Nat × BlockData)) (id : Nat)
    (f : BlockData → BlockData) :
    fdLookup (blocks.map (fun p => (p.1, f p.2))) id =
      (fdLookup blocks id).map f := by
  induction blocks with
  | nil => rfl
  | cons p rest ih =>
      by_cases h : p.1 = id <;> simp [fdLookup, List.find?, h] <;>
        simpa [fdLookup] using ih

theorem takeWhile_eq_self_of_all {p : BatchRow → Bool} (l : Batch)
    (h : ∀ a ∈ l, p a = true) : l.takeWhile p = l := by
  induction l with
  | nil => rfl
  | cons x xs ih =>
      rw [List.takeWhile_cons, if_pos (h x (List.mem_cons_self x xs))]
      rw [ih (fun a ha => h a (List.mem_cons_of_mem x ha))]

theorem filter_length_ne_iff (ts : TS) (bat : Batch) :
    ((bat.filter (fun r => decide (r.commitTs ≤ ts))).length ≠ bat.length) ↔
      ∃ r ∈ bat, ts < r.commitTs := by
  constructor
  · intro hne
    by_contra hno
    push_neg at hno
    have hall : ∀ r ∈ bat, r.commitTs ≤ ts := fun r hr => Nat.not_lt.mp (by
      intro hlt
      exact absurd hlt (by simpa using hno r hr))
    exact hne (by rw [filter_eq_self_of_no_exclusion ts bat hall])
  · rintro ⟨r, hr, hlt⟩ heq
    have hfe := List.Sublist.eq_of_length (List.filter_sublist bat) heq
    have hmem : r ∈ bat.filter (fun r => decide (r.commitTs ≤ ts)) := by
      rw [hfe]; exact hr
    have hkeep := List.of_mem_filter hmem
    simp only [decide_eq_true_eq] at hkeep
    exact Nat.not_le.mpr hlt hkeep

theorem odLookup_mem (od : ObjectsData) (name : ObjectName) (fd : FileData)
    (h : odLookup od name = some fd) : ∃ q ∈ od, q.2 = fd := by
  unfold odLookup at h
  cases hf : od.find? (fun p => p.1 = name) with
  | none => rw [hf] at h; cases h
  | some q =>
      rw [hf] at h
      exact ⟨q, List.mem_of_find?_eq_some hf, by injection h⟩

theorem fdLookup_mem (blocks : List (Nat × BlockData)) (id : Nat) (b : BlockData)
    (h : fdLookup blocks id = some b) : ∃ q ∈ blocks, q.2 = b := by
  unfold fdLookup at h
  cases hf : blocks.find? (fun p => p.1 = id) with
  | none => rw [hf] at h; cases h
  | some q =>
      rw [hf] at h
      exact ⟨q, List.mem_of_find?_eq_some hf, by injection h⟩

theorem any_map_eq {α β : Type} (l : List α) (f : α → β) (p : β → Bool) :
    (l.map f).any p = l.any (fun a => p (f a)) := by
  induction l with
  | nil => rfl
  | cons x xs ih => simp [List.any_cons, ih]

theorem trimObjectsData_fst (env : Env) (ts : TS) (od : ObjectsData) :
    (trimObjectsData env ts od).1 =
      od.map (fun p => (p.1, (trimFileData env ts p.2).1)) := by
  simp [trimObjectsData, List.map_map, Function.comp]

theorem trimObjectsData_snd (env : Env) (ts : TS) (od : ObjectsData) :
    (trimObjectsData env ts od).2 =
      od.any (fun p => (trimFileData env ts p.2).2) := by
  show ((od.map (fun p => (p.1, trimFileData env ts p.2))).any fun p => p.2.2) = _
  rw [any_map_eq]

theorem trimFileData_fst_data (env : Env) (ts : TS) (fd : FileData) :
    (trimFileData env ts fd).1.data =
      fd.data.map (fun p => (p.1, (trimBlockEntry env ts p.2).1)) := by
  simp [trimFileData, List.map_map, Function.comp]

theorem trimFileData_snd (env : Env) (ts : TS) (fd : FileData) :
    (trimFileData env ts fd).2 =
      fd.data.any (fun p => (trimBlockEntry env ts p.2).2) := by
  show ((fd.data.map (fun p => (p.1, trimBlockEntry env ts p.2))).any fun p => p.2.2) = _
  rw [any_map_eq]

theorem trimFileData_isChange_eq_snd (env : Env) (ts : TS) (fd : FileData) :
    (trimFileData env ts fd).1.isChange = (trimFileData env ts fd).2 := rfl

/-- The tombstone branch of `trimBlockEntry`, in closed form: the loaded
batch is filtered to the rows at or before the watermark (whether or not
the shrink was taken), and the change flag records whether a row was
excluded. -/
theorem trimBlockEntry_tombstone (env : Env) (ts : TS) (b : BlockData)
    (hT : b.blockType = DataMetaType.schemaTombstone) :
    trimBlockEntry env ts b =
      ({ b with data := some ((env.loadBlock b.location DataMetaType.schemaTombstone).filter
            (fun r => decide (r.commitTs ≤ ts))) },
       (env.loadBlock b.location DataMetaType.schemaTombstone).any
            (fun r => decide (ts < r.commitTs))) := by
  by_cases hlen : ((env.loadBlock b.location DataMetaType.schemaTombstone).filter
      (fun r => decide (r.commitTs ≤ ts))).length =
      (env.loadBlock b.location DataMetaType.schemaTombstone).length
  · have hfe := List.Sublist.eq_of_length
      (List.filter_sublist (env.loadBlock b.location DataMetaType.schemaTombstone)) hlen
    simp [trimBlockEntry, hT, tombstoneScan_eq, formatData, hlen, hfe]
  · simp [trimBlockEntry, hT, tombstoneScan_eq, formatData, hlen]

/-- The appendable-data branch of `trimBlockEntry`, in closed form: the
loaded batch is truncated at the first row past the watermark, the sort
key is taken from the object metadata, and the change flag records whether
any row exceeded the watermark. -/
theorem trimBlockEntry_adata (env : Env) (ts : TS) (b : BlockData)
    (hA : b.isABlock = true) (hD : b.blockType = DataMetaType.schemaData) :
    trimBlockEntry env ts b =
      ({ b with
          data := some ((env.loadBlock b.location DataMetaType.schemaData).takeWhile
            (fun r => decide (r.commitTs ≤ ts))),
          sortKey := if env.metaAppendable b.location then env.metaSortKey b.location
                     else maxUint16 },
       (env.loadBlock b.location DataMetaType.schemaData).any
            (fun r => decide (ts < r.commitTs))) := by
  simp [trimBlockEntry, hA, hD, dataScan_eq, formatData]

/-- C1: for every block examined by the trim pass, the kept rows are
exactly those with commit timestamp at or before the watermark.  A
tombstone block keeps exactly the filtered rows, shrinking iff a row was
excluded; an appendable data block keeps the prefix strictly before the
first row past the watermark — on a batch physically ordered by commit
timestamp this is exactly the filtered set — and is left whole when no row
exceeds the watermark.  In either case an exclusion raises the block's
change flag, which raises the owning object's changed flag and the
checkpoint-changed flag. -/
theorem trim_keeps_exactly_watermark_rows (env : Env) (ts : TS)
    (od : ObjectsData) (name : ObjectName) (fd : FileData)
    (id : Nat) (b : BlockData)
    (hfd : odLookup od name = some fd)
    (hb : fdLookup fd.data id = some b) :
    (odLookup (trimObjectsData env ts od).1 name = some (trimFileData env ts fd).1
      ∧ fdLookup (trimFileData env ts fd).1.data id = some (trimBlockEntry env ts b).1)
    ∧ (b.blockType = DataMetaType.schemaTombstone →
        (trimBlockEntry env ts b).1.data =
          some ((env.loadBlock b.location DataMetaType.schemaTombstone).filter
            (fun r => decide (r.commitTs ≤ ts)))
        ∧ ((trimBlockEntry env ts b).2 = true ↔
            ∃ r ∈ env.loadBlock b.location DataMetaType.schemaTombstone, ts < r.commitTs)
        ∧ (((env.loadBlock b.location DataMetaType.schemaTombstone).filter
              (fun r => decide (r.commitTs ≤ ts))).length ≠
              (env.loadBlock b.location DataMetaType.schemaTombstone).length ↔
            ∃ r ∈ env.loadBlock b.location DataMetaType.schemaTombstone, ts < r.commitTs))
    ∧ (b.isABlock = true → b.blockType = DataMetaType.schemaData →
        (trimBlockEntry env ts b).1.data =
          some ((env.loadBlock b.location DataMetaType.schemaData).takeWhile
            (fun r => decide (r.commitTs ≤ ts)))
        ∧ ((env.loadBlock b.location DataMetaType.schemaData).Pairwise
              (fun a c => a.commitTs ≤ c.commitTs) →
            (trimBlockEntry env ts b).1.data =
              some ((env.loadBlock b.location DataMetaType.schemaData).filter
                (fun r => decide (r.commitTs ≤ ts))))
        ∧ ((∀ r ∈ env.loadBlock b.location DataMetaType.schemaData, r.commitTs ≤ ts) →
            (trimBlockEntry env ts b).1.data =
              some (env.loadBlock b.location DataMetaType.schemaData))
        ∧ ((trimBlockEntry env ts b).2 = true ↔
            ∃ r ∈ env.loadBlock b.location DataMetaType.schemaData, ts < r.commitTs))
    ∧ ((trimBlockEntry env ts b).2 = true →
        (trimFileData env ts fd).1.isChange = true
        ∧ (trimObjectsData env ts od).2 = true) := by
  refine ⟨⟨?_, ?_⟩, ?_, ?_, ?_⟩
  · rw [trimObjectsData_fst,
      odLookup_map od name (fun x => (trimFileData env ts x).1), hfd]
    rfl
  · rw [trimFileData_fst_data,
      fdLookup_map fd.data id (fun x => (trimBlockEntry env ts x).1), hb]
    rfl
  · intro hT
    rw [trimBlockEntry_tombstone env ts b hT]
    refine ⟨rfl, ?_, filter_length_ne_iff ts _⟩
    simp [List.any_eq_true]
  · intro hA hD
    rw [trimBlockEntry_adata env ts b hA hD]
    refine ⟨rfl, ?_, ?_, ?_⟩
    · intro hsorted
      rw [takeWhile_eq_filter_of_sorted ts _ hsorted]
    · intro hall
      rw [takeWhile_eq_self_of_all _ (fun a ha => by simpa using hall a ha)]
    · simp [List.any_eq_true]
  · intro hchg
    obtain ⟨q, hqmem, hq2⟩ := fdLookup_mem fd.data id b hb
    have hfds : (trimFileData env ts fd).2 = true := by
      rw [trimFileData_snd]
      exact List.any_eq_true.mpr ⟨q, hqmem, by rw [hq2]; exact hchg⟩
    refine ⟨by rw [trimFileData_isChange_eq_snd]; exact hfds, ?_⟩
    obtain ⟨p, hpmem, hp2⟩ := odLookup_mem od name fd hfd
    rw [trimObjectsData_snd]
    exact List.any_eq_true.mpr ⟨p, hpmem, by rw [hp2]; exact hfds⟩

/-- Witness for C1: instantiated at the concrete one-object map `wOd`, the
tombstone block `wTomb` (loaded rows committed at 4 and 6) keeps exactly
the row committed at 4 under watermark 5, and the appendable data block
`wABlk` (loaded rows committed at 2 and 7) keeps exactly the row committed
at 2; both exclusions raise the checkpoint-changed flag. -/
theorem trim_keeps_exactly_watermark_rows_witness :
    (odLookup wOd wName = some wFd ∧ fdLookup wFd.data 0 = some wTomb
      ∧ fdLookup wFd.data 1 = some wABlk)
    ∧ (trimBlockEntry wEnv 5 wTomb).1.data = some [wRow 4]
    ∧ (trimBlockEntry wEnv 5 wABlk).1.data = some [wRow 2]
    ∧ (trimObjectsData wEnv 5 wOd).2 = true := by
  have h0 := trim_keeps_exactly_watermark_rows wEnv 5 wOd wName wFd 0 wTomb rfl rfl
  have h1 := trim_keeps_exactly_watermark_rows wEnv 5 wOd wName wFd 1 wABlk rfl rfl
  refine ⟨⟨rfl, rfl, rfl⟩, ?_, ?_, ?_⟩
  · rw [(h0.2.1 rfl).1]; rfl
  · rw [(h1.2.2.1 rfl rfl).1]; rfl
  · refine (h0.2.2.2 ?_).2
    rw [trimBlockEntry_tombstone wEnv 5 wTomb rfl]; rfl

/-- C9: the trim pass never touches a sealed data block — it is returned
unchanged (loaded data still absent, sort key untouched) with a false
change flag, and the result does not depend on the oracles at all (no row
data or metadata is read for it). -/
theorem trim_ignores_sealed_data_blocks (env env' : Env) (ts : TS)
    (b : BlockData) (h1 : b.isABlock = false)
    (h2 : b.blockType = DataMetaType.schemaData) :
    trimBlockEntry env ts b = (b, false)
    ∧ trimBlockEntry env' ts b = trimBlockEntry env ts b := by
  have hc : (!b.isABlock && decide (b.blockType = DataMetaType.schemaData)) = true := by
    simp [h1, h2]
  constructor
  · unfold trimBlockEntry
    rw [if_pos (by simpa using hc)]
  · unfold trimBlockEntry
    rw [if_pos (by simpa using hc), if_pos (by simpa using hc)]

/-- Witness for C9: the concrete sealed block `wSealed` is untouched under
two different oracles. -/
theorem trim_ignores_sealed_data_blocks_witness :
    trimBlockEntry wEnv 5 wSealed = (wSealed, false)
    ∧ trimBlockEntry wEnvBoom 5 wSealed = trimBlockEntry wEnv 5 wSealed :=
  trim_ignores_sealed_data_blocks wEnv wEnvBoom 5 wSealed rfl rfl

/-- C6: `applyDelete` removes from the data batch exactly the row offsets
targeted by a tombstone row whose decoded owning block id equals the
target block; the remaining rows are kept in their original order, and an
absent tombstone batch leaves the data batch unchanged with no error. -/
theorem applyDelete_removes_exactly_matching_offsets (dataBatch del : Batch)
    (id : Blockid) :
    applyDelete dataBatch (some del) id =
      Except.ok ((dataBatch.enum.filter (fun p =>
        decide (¬ ∃ r ∈ del, r.rowid.blockId = id ∧ r.rowid.offset = p.1))).map
          Prod.snd)
    ∧ applyDelete dataBatch none id = Except.ok dataBatch := by
  constructor
  · simp only [applyDelete, antiShrink]
    congr 2
    apply List.filter_congr
    intro p hp
    have hlt : p.1 < dataBatch.length := by
      have : p.1 ∈ dataBatch.enum.map Prod.fst := List.mem_map_of_mem Prod.fst hp
      rw [List.enum_map_fst] at this
      exact List.mem_range.mp this
    simp only [decide_eq_decide, List.mem_filter, List.mem_range, List.any_eq_true,
      Bool.and_eq_true, decide_eq_true_eq]
    constructor
    · intro hno
      rintro ⟨r, hr, hbid, hoff⟩
      exact hno ⟨hlt, ⟨r, hr, hbid, hoff⟩⟩
    · rintro hno ⟨-, r, hr, hbid, hoff⟩
      exact hno ⟨r, hr, hbid, hoff⟩
  · rfl

/-- C8: when the promotion path is reached — a delete-batch appendable
object whose block 0 is a non-tombstone block — more than two blocks abort
the process with a panic, not a returned error. -/
theorem promotion_excess_blocks_panic (env : Env) (odAll : ObjectsData)
    (fileName : ObjectName) (fd : FileData) (st : P4State) (b0 : BlockData)
    (h1 : fd.isDeleteBatch = true) (h2 : fdLookup fd.data 0 = some b0)
    (h3 : ¬ b0.blockType = DataMetaType.schemaTombstone)
    (h4 : fd.isABlock = true) (h5 : fd.data.length > 2) :
    processObject env odAll fileName fd st =
      Outcome.panicked "dataBlocks len > 2" := by
  have hlen : (sortBlocksByNum (fd.data.map Prod.snd)).length > 2 := by
    rw [sortBlocksByNum_length, List.length_map]; exact h5
  simp [processObject, promoteObject, h1, h2, h3, h4, hlen]

/-- Witness for C8: the concrete three-block appendable delete-batch
object `wFd3` panics. -/
theorem promotion_excess_blocks_panic_witness :
    wFd3.isDeleteBatch = true ∧ wFd3.data.length > 2
    ∧ processObject wEnv [] wName wFd3 wSt =
        Outcome.panicked "dataBlocks len > 2" :=
  ⟨rfl, by decide,
   promotion_excess_blocks_panic wEnv [] wName wFd3 wSt wB0 rfl rfl
     (by decide) rfl (by decide)⟩

/-- Counterexample for C7: with an oracle whose first write to any
destination fails as "already exists" and whose second write succeeds, the
in-place rewrite path recovers (delete and one retry) — but the promotion
write path panics on the very same "already exists" failure instead of
deleting and retrying, so the claimed recovery does not apply on every
write path of the rewrite. -/
theorem promotion_write_failure_counterexample :
    wEnvRetry.sync { segment := 3, num := 1004 } 1 = SyncResult.errExists
    ∧ outcomeIsOk (processObject wEnvRetry [] wName wFdIP wSt) = true
    ∧ processObject wEnvRetry [] wName wFd1 wSt =
        Outcome.panicked "sync error" := by
  refine ⟨rfl, ?_, ?_⟩ <;> rfl

/-- C7 amended: the "already exists" write failure is recovered — by
deleting the stale destination and retrying exactly once — only on the
in-place rewrite path (`syncWithRetry`); there any other first failure,
and any failure of the retry, abort the rewrite with a returned error.  On
the promotion write path any write failure, "already exists" included,
panics instead. -/
theorem write_failure_recovery_amended (env : Env) (odAll : ObjectsData)
    (fileName : ObjectName) (objectData : FileData)
    (dataBlocks : List BlockData) (st : P4State) (e : Nat) (m : String) :
    (env.sync fileName 1 = SyncResult.ok e →
        syncWithRetry env fileName = Outcome.ok (e, [fileName]))
    ∧ (env.sync fileName 1 = SyncResult.errExists →
        env.delete fileName = none →
        env.sync fileName 2 = SyncResult.ok e →
        syncWithRetry env fileName = Outcome.ok (e, [fileName, fileName]))
    ∧ (env.sync fileName 1 = SyncResult.errOther m →
        syncWithRetry env fileName = Outcome.failed m)
    ∧ (env.sync fileName 1 = SyncResult.errExists →
        env.delete fileName = none →
        env.sync fileName 2 = SyncResult.errOther m →
        syncWithRetry env fileName = Outcome.failed m)
    ∧ (objectData.isABlock = true →
        ¬ dataBlocks.length > 2 →
        (∀ x, env.sync (buildObjectName
            (dataBlocks.headD defaultBlockData).location.name.segment
            (1000 + (dataBlocks.headD defaultBlockData).location.name.num)) 1
            ≠ SyncResult.ok x) →
        promoteObject env odAll objectData dataBlocks st =
          Outcome.panicked "sync error") := by
  refine ⟨?_, ?_, ?_, ?_, ?_⟩
  · intro h1; simp [syncWithRetry, h1]
  · intro h1 hdel h2; simp [syncWithRetry, h1, hdel, h2]
  · intro h1; simp [syncWithRetry, h1]
  · intro h1 hdel h2; simp [syncWithRetry, h1, hdel, h2]
  · intro hA hlen hsync
    simp only [promoteObject, hA, Bool.not_true, Bool.false_eq_true, if_false,
      if_neg hlen]
    cases hs : env.sync (buildObjectName
        (dataBlocks.headD defaultBlockData).location.name.segment
        (1000 + (dataBlocks.headD defaultBlockData).location.name.num)) 1 with
    | ok x => exact absurd hs (hsync x)
    | errExists => rfl
    | errOther msg => rfl

/-- Witness for C7's amended claim: the retry oracle recovers on the
in-place completion, the failing oracle aborts it, and the retry oracle
still panics on the promotion write. -/
theorem write_failure_recovery_amended_witness :
    syncWithRetry wEnvRetry wName = Outcome.ok (3, [wName, wName])
    ∧ syncWithRetry wEnvBoom wName = Outcome.failed "boom"
    ∧ syncWithRetry wEnvRetryBoom wName = Outcome.failed "boom2"
    ∧ promoteObject wEnvRetry [] wFd1 [wB0] wSt =
        Outcome.panicked "sync error" := by
  refine ⟨?_, ?_, ?_, ?_⟩
  · exact (write_failure_recovery_amended wEnvRetry [] wName wFd1 [wB0] wSt
      3 "x").2.1 rfl rfl rfl
  · exact (write_failure_recovery_amended wEnvBoom [] wName wFd1 [wB0] wSt
      3 "boom").2.2.1 rfl
  · exact (write_failure_recovery_amended wEnvRetryBoom [] wName wFd1 [wB0] wSt
      3 "boom2").2.2.2.1 rfl rfl rfl
  · exact (write_failure_recovery_amended wEnvRetry [] wName wFd1 [wB0] wSt
      3 "x").2.2.2.2 rfl (by decide)
      (fun x h => SyncResult.noConfusion
        (show SyncResult.errExists = SyncResult.ok x from h))

/-- C2: when the trim pass reports the checkpoint unchanged, the rewrite
returns the original checkpoint location and tn location, an empty
written-file list and no error, and attempts no object-file write (the
write trace is empty). -/
theorem rewrite_noop_when_checkpoint_unchanged (env : Env)
    (data : CheckpointData) (loc tn : Loc) (ts : TS) (sd : SoftDeletes)
    (od : ObjectsData)
    (hcollect : collectObjects ts sd data = Outcome.ok od)
    (htrim : (trimObjectsData env ts od).2 = false) :
    ReWriteCheckpointAndBlockFromKey env data loc tn ts sd =
      Outcome.ok (loc, tn, [], data, []) := by
  unfold ReWriteCheckpointAndBlockFromKey
  rw [hcollect]
  simp [htrim]

/-- Witness for C2: the empty checkpoint indexes to an empty map, trims
unchanged, and the rewrite returns the original locations untouched. -/
theorem rewrite_noop_when_checkpoint_unchanged_witness :
    collectObjects 5 [] wEmptyData = Outcome.ok []
    ∧ (trimObjectsData wEnv 5 []).2 = false
    ∧ ReWriteCheckpointAndBlockFromKey wEnv wEmptyData wCkpLoc wCkpTn 5 [] =
        Outcome.ok (wCkpLoc, wCkpTn, [], wEmptyData, []) :=
  ⟨rfl, rfl,
   rewrite_noop_when_checkpoint_unchanged wEnv wEmptyData wCkpLoc wCkpTn 5 []
     [] rfl rfl⟩

/-- A delete-side row committed strictly before the watermark panics the
delete-side indexing loop, whatever else the table holds. -/
theorem collectCNLoop_panics (ts : TS) (sd : SoftDeletes)
    (delTxn : List TxnRow) (rows : List MetaRow) :
    ∀ (i : Nat) (od : ObjectsData), (∃ r ∈ rows, r.commitTs < ts) →
    ∃ m, collectCNLoop ts sd delTxn i rows od = Outcome.panicked m := by
  induction rows with
  | nil => intro i od h; simp at h
  | cons r rest ih =>
      intro i od h
      by_cases hr : r.commitTs < ts
      · exact ⟨"commitTs less than ts",
          by simp [collectCNLoop, collectCNRowStep, hr]⟩
      · have hrest : ∃ r' ∈ rest, r'.commitTs < ts := by
          rcases h with ⟨r', hmem, hlt⟩
          rcases List.mem_cons.mp hmem with heq | hmem'
          · exact absurd (heq ▸ hlt) hr
          · exact ⟨r', hmem', hlt⟩
        by_cases hskip : (match r.metaLoc with
            | some ml => sdLookup sd ml.name ml.id
            | none => false) = true
        · simp only [collectCNLoop, collectCNRowStep, if_neg hr, if_pos hskip]
          exact ih (i + 1) od hrest
        · simp only [collectCNLoop, collectCNRowStep, if_neg hr, if_neg hskip]
          exact ih (i + 1) _ hrest

/-- With no delete-side row before the watermark, the delete-side loop
completes. -/
theorem collectCNLoop_ok (ts : TS) (sd : SoftDeletes)
    (delTxn : List TxnRow) (rows : List MetaRow) :
    ∀ (i : Nat) (od : ObjectsData), (∀ r ∈ rows, ¬ r.commitTs < ts) →
    ∃ od', collectCNLoop ts sd delTxn i rows od = Outcome.ok od' := by
  induction rows with
  | nil => intro i od _; exact ⟨od, rfl⟩
  | cons r rest ih =>
      intro i od h
      have hr : ¬ r.commitTs < ts := h r (List.mem_cons_self r rest)
      have hrest : ∀ r' ∈ rest, ¬ r'.commitTs < ts :=
        fun r' h' => h r' (List.mem_cons_of_mem r h')
      by_cases hskip : (match r.metaLoc with
          | some ml => sdLookup sd ml.name ml.id
          | none => false) = true
      · simp only [collectCNLoop, collectCNRowStep, if_neg hr, if_pos hskip]
        exact ih (i + 1) od hrest
      · simp only [collectCNLoop, collectCNRowStep, if_neg hr, if_neg hskip]
        exact ih (i + 1) _ hrest

/-- A live-insert row flagged appendable panics the insert indexing
loop. -/
theorem collectInsLoop_panics (insTxn : List TxnRow) (rows : List MetaRow) :
    ∀ (i : Nat) (od : ObjectsData), (∃ r ∈ rows, r.entryState = true) →
    ∃ m, collectInsLoop insTxn i rows od = Outcome.panicked m := by
  induction rows with
  | nil => intro i od h; simp at h
  | cons r rest ih =>
      intro i od h
      by_cases hr : r.entryState = true
      · exact ⟨"The inserted block is an ablock",
          by simp [collectInsLoop, collectInsRowStep, hr]⟩
      · have hrest : ∃ r' ∈ rest, r'.entryState = true := by
          rcases h with ⟨r', hmem, hab⟩
          rcases List.mem_cons.mp hmem with heq | hmem'
          · exact absurd (heq ▸ hab) hr
          · exact ⟨r', hmem', hab⟩
        simp only [collectInsLoop, collectInsRowStep, if_neg hr]
        exact ih (i + 1) _ hrest

/-- C5: a delete-side metadata row with commit timestamp strictly before
the watermark makes the rewrite abort with a panic (not a returned error),
regardless of the oracles, the soft-delete set or the other rows; a
live-insert row flagged appendable gets the same fatal treatment. -/
theorem rewrite_panics_on_invariant_violation (env : Env)
    (data : CheckpointData) (loc tn : Loc) (ts : TS) (sd : SoftDeletes)
    (h : (∃ r ∈ data.cnMetaInsert, r.commitTs < ts)
       ∨ (∃ r ∈ data.metaInsert, r.entryState = true)) :
    ∃ m, ReWriteCheckpointAndBlockFromKey env data loc tn ts sd =
      Outcome.panicked m := by
  rcases h with h | h
  · obtain ⟨m, hm⟩ :=
      collectCNLoop_panics ts sd data.metaDelTxn data.cnMetaInsert 0 [] h
    exact ⟨m, by simp [ReWriteCheckpointAndBlockFromKey, collectObjects, hm]⟩
  · by_cases hcn : ∃ r ∈ data.cnMetaInsert, r.commitTs < ts
    · obtain ⟨m, hm⟩ :=
        collectCNLoop_panics ts sd data.metaDelTxn data.cnMetaInsert 0 [] hcn
      exact ⟨m, by simp [ReWriteCheckpointAndBlockFromKey, collectObjects, hm]⟩
    · push_neg at hcn
      obtain ⟨od', hod⟩ :=
        collectCNLoop_ok ts sd data.metaDelTxn data.cnMetaInsert 0 []
          (fun r hr => Nat.not_lt.mpr (hcn r hr))
      obtain ⟨m, hm⟩ := collectInsLoop_panics data.metaInsTxn data.metaInsert 0 od' h
      exact ⟨m,
        by simp [ReWriteCheckpointAndBlockFromKey, collectObjects, hod, hm]⟩

/-- Witness for C5: the checkpoint `wDataLow` holds a delete-side row
committed at 3, before watermark 5, and the rewrite panics on it; the
checkpoint `wDataAb` holds an appendable live-insert row and the rewrite
panics on it too. -/
theorem rewrite_panics_on_invariant_violation_witness :
    (∃ r ∈ wDataLow.cnMetaInsert, r.commitTs < 5)
    ∧ (∃ r ∈ wDataAb.metaInsert, r.entryState = true)
    ∧ (∃ m, ReWriteCheckpointAndBlockFromKey wEnv wDataLow wCkpLoc wCkpTn 5 [] =
        Outcome.panicked m)
    ∧ (∃ m, ReWriteCheckpointAndBlockFromKey wEnv wDataAb wCkpLoc wCkpTn 5 [] =
        Outcome.panicked m) :=
  ⟨by decide, by decide,
   rewrite_panics_on_invariant_violation wEnv wDataLow wCkpLoc wCkpTn 5 []
     (Or.inl (by decide)),
   rewrite_panics_on_invariant_violation wEnv wDataAb wCkpLoc wCkpTn 5 []
     (Or.inr (by decide))⟩

/-- Counterexample for C4: block (wName, 0) is in the soft-delete set
produced by `loadSoftDeletes` over a prior checkpoint, and a delete-side
row pointing at it is indeed skipped — but a *live-insert* metadata row
pointing at the very same block is indexed anyway (a BlockEntry is
created), so indexing does not skip every metadata row whose block is in
the set, and a rewrite run with a soft-delete set from a prior
`LoadCheckpointEntriesFromKey` call can still process a block in that
set. -/
theorem softdelete_insert_side_counterexample :
    sdLookup (loadSoftDeletes wDataCN []) wName 0 = true
    ∧ collectObjects 5 (loadSoftDeletes wDataCN []) wDataCN = Outcome.ok []
    ∧ (match collectObjects 5 (loadSoftDeletes wDataCN []) wDataIns with
       | Outcome.ok od => (odLookup od wName).isSome
       | _ => false) = true :=
  ⟨rfl, rfl, rfl⟩

/-- C4 amended: only delete-side metadata rows are checked against the
soft-delete set: a delete-side row whose (non-empty) data location lies in
the set is skipped entirely — it contributes no object entry, no block
entry and no row-list entry, so its blocks are never trimmed or rewritten;
live-insert rows are indexed regardless of the set. -/
theorem softdelete_skips_delete_side_row (ts : TS) (sd : SoftDeletes)
    (delTxn : List TxnRow) (i : Nat) (row : MetaRow) (od : ObjectsData)
    (ml : Loc) (hml : row.metaLoc = some ml)
    (hsd : sdLookup sd ml.name ml.id = true)
    (hts : ¬ row.commitTs < ts) :
    collectCNRowStep ts sd delTxn i row od = Outcome.ok od := by
  simp [collectCNRowStep, hts, hml, hsd]

/-- Witness for C4's amended claim: the concrete delete-side row `wCnRow`
whose data block is soft-deleted contributes nothing. -/
theorem softdelete_skips_delete_side_row_witness :
    wCnRow.metaLoc = some (wLoc 0)
    ∧ sdLookup (loadSoftDeletes wDataCN []) (wLoc 0).name (wLoc 0).id = true
    ∧ collectCNRowStep 5 (loadSoftDeletes wDataCN []) [defaultTxnRow] 0 wCnRow []
        = Outcome.ok [] :=
  ⟨rfl, rfl,
   softdelete_skips_delete_side_row 5 (loadSoftDeletes wDataCN [])
     [defaultTxnRow] 0 wCnRow [] (wLoc 0) rfl rfl (by decide)⟩

/-! ## Reconciliation accounting lemmas -/

theorem unappliedTotal_cons (p : Nat × List InsertBlock) (rest : IBMap) :
    unappliedTotal (p :: rest) = unappliedCount p.2 + unappliedTotal rest := by
  simp [unappliedTotal]

theorem ibTotal_cons (p : Nat × List InsertBlock) (rest : IBMap) :
    ibTotal (p :: rest) = p.2.length + ibTotal rest := by
  simp [ibTotal]

theorem mergeDeleteRows_cons (p : Nat × List InsertBlock) (rest : IBMap) :
    mergeDeleteRows (p :: rest) =
      entryDeleteRows p.2 ++ mergeDeleteRows rest := by
  simp [mergeDeleteRows]

theorem applyIB_snd_eq (cn : List MetaRow) (delTxn : List TxnRow)
    (acc : List MetaRow × List TxnRow) (ib : InsertBlock) :
    (applyIB cn delTxn acc ib).2 = { ib with apply := true } := by
  by_cases h : ib.apply = true
  · cases ib with
    | mk blockId location deleteRow ap dat =>
        simp only at h
        subst h
        simp [applyIB]
  · simp only [applyIB, h, if_false]
    cases hl : ib.location <;> simp

theorem applyIB_fst_fst_length (cn : List MetaRow) (delTxn : List TxnRow)
    (acc : List MetaRow × List TxnRow) (ib : InsertBlock) :
    (applyIB cn delTxn acc ib).1.1.length =
      acc.1.length + (if ib.apply then 0 else 1) := by
  by_cases h : ib.apply = true
  · simp [applyIB, h]
  · simp only [applyIB, h, if_false]
    cases hl : ib.location with
    | none => simp
    | some l => simp [updateBlockMeta, listModify_length]

theorem applyIBList_snd_eq (cn : List MetaRow) (delTxn : List TxnRow) :
    ∀ (ibs : List InsertBlock) (acc : List MetaRow × List TxnRow),
    (applyIBList cn delTxn acc ibs).2 = setApplied ibs := by
  intro ibs
  induction ibs with
  | nil => intro acc; rfl
  | cons ib rest ih =>
      intro acc
      simp only [applyIBList, setApplied, List.map_cons]
      rw [applyIB_snd_eq, ih]
      rfl

theorem applyIBList_fst_fst_length (cn : List MetaRow) (delTxn : List TxnRow) :
    ∀ (ibs : List InsertBlock) (acc : List MetaRow × List TxnRow),
    (applyIBList cn delTxn acc ibs).1.1.length =
      acc.1.length + unappliedCount ibs := by
  intro ibs
  induction ibs with
  | nil => intro acc; simp [applyIBList, unappliedCount]
  | cons ib rest ih =>
      intro acc
      simp only [applyIBList]
      rw [ih, applyIB_fst_fst_length]
      by_cases h : ib.apply = true <;>
        simp [unappliedCount, List.filter_cons, h] <;> omega

theorem unappliedCount_setApplied (ibs : List InsertBlock) :
    unappliedCount (setApplied ibs) = 0 := by
  induction ibs with
  | nil => rfl
  | cons ib rest ih =>
      simpa [unappliedCount, setApplied, List.filter_cons] using ih

theorem unappliedCount_eq_length : ∀ (ibs : List InsertBlock),
    (∀ ib ∈ ibs, ib.apply = false) → unappliedCount ibs = ibs.length := by
  intro ibs
  induction ibs with
  | nil => intro _; rfl
  | cons ib rest ih =>
      intro h
      have hib := h ib (List.mem_cons_self ib rest)
      have hrest := fun x hx => h x (List.mem_cons_of_mem ib hx)
      have hr := ih hrest
      simp only [unappliedCount, List.filter_cons, hib] at hr ⊢
      simp [hr]

theorem unappliedTotal_eq_ibTotal : ∀ (m : IBMap),
    (∀ p ∈ m, ∀ ib ∈ p.2, ib.apply = false) → unappliedTotal m = ibTotal m := by
  intro m
  induction m with
  | nil => intro _; rfl
  | cons p rest ih =>
      intro h
      have hp := h p (List.mem_cons_self p rest)
      have hrest := fun x hx => h x (List.mem_cons_of_mem p hx)
      rw [unappliedTotal_cons, ibTotal_cons, unappliedCount_eq_length p.2 hp,
        ih hrest]

theorem ibmap_update_keys (m : IBMap) (tid : Nat) (newl : List InsertBlock) :
    (m.map (fun q => if q.1 = tid then (q.1, newl) else q)).map Prod.fst =
      m.map Prod.fst := by
  induction m with
  | nil => rfl
  | cons q rest ih =>
      by_cases h : q.1 = tid <;> simp [h, ih]

theorem ibmap_update_not_mem (m : IBMap) (tid : Nat) (newl : List InsertBlock)
    (h : ∀ q ∈ m, q.1 ≠ tid) :
    m.map (fun q => if q.1 = tid then (q.1, newl) else q) = m := by
  induction m with
  | nil => rfl
  | cons q rest ih =>
      have hq := h q (List.mem_cons_self q rest)
      have hrest := fun x hx => h x (List.mem_cons_of_mem q hx)
      simp [hq, ih hrest]

theorem unappliedTotal_update : ∀ (m : IBMap) (tid : Nat)
    (p : Nat × List InsertBlock) (newl : List InsertBlock),
    m.find? (fun q => decide (q.1 = tid)) = some p →
    (m.map Prod.fst).Nodup →
    unappliedTotal (m.map (fun q => if q.1 = tid then (q.1, newl) else q))
        + unappliedCount p.2
      = unappliedTotal m + unappliedCount newl := by
  intro m
  induction m with
  | nil => intro tid p newl hfind _; cases hfind
  | cons q rest ih =>
      intro tid p newl hfind hnodup
      rw [List.map_cons] at hnodup
      obtain ⟨hq, hrest⟩ := List.nodup_cons.mp hnodup
      by_cases h : q.1 = tid
      · have hp : p = q := by
          rw [List.find?_cons_of_pos _ (by simpa using h)] at hfind
          injection hfind with h'
          exact h'.symm
        subst hp
        have hnm : ∀ x ∈ rest, x.1 ≠ tid := by
          intro x hx hc
          exact hq (by
            rw [h, ← hc]
            exact List.mem_map_of_mem Prod.fst hx)
        rw [List.map_cons, if_pos h, ibmap_update_not_mem rest tid newl hnm,
          unappliedTotal_cons, unappliedTotal_cons]
        dsimp only
        omega
      · have hfind' : rest.find? (fun q => decide (q.1 = tid)) = some p := by
          rw [List.find?_cons_of_neg _ (by simpa using h)] at hfind
          exact hfind
        rw [List.map_cons, if_neg h, unappliedTotal_cons, unappliedTotal_cons]
        have := ih tid p newl hfind' hrest
        omega

theorem entryDeleteRows_step_append : ∀ (ibs : List InsertBlock) (acc : List Nat),
    ibs.foldl
      (fun acc ib =>
        match ib.data with
        | some bd => acc ++ bd.deleteRow
        | none => acc)
      acc = acc ++ entryDeleteRows ibs := by
  intro ibs
  induction ibs with
  | nil => intro acc; simp [entryDeleteRows]
  | cons ib rest ih =>
      intro acc
      rw [List.foldl_cons, ih]
      cases hd : ib.data with
      | none => simp [entryDeleteRows, hd]
      | some bd => simp [entryDeleteRows, hd]

theorem collectDeleteRows_eq_merge (m : IBMap) :
    collectDeleteRows m = mergeDeleteRows m := by
  have step : ∀ (mm : IBMap) (acc : List Nat),
      mm.foldl
        (fun acc p =>
          p.2.foldl
            (fun acc ib =>
              match ib.data with
              | some bd => acc ++ bd.deleteRow
              | none => acc)
            acc)
        acc = acc ++ mergeDeleteRows mm := by
    intro mm
    induction mm with
    | nil => intro acc; simp [mergeDeleteRows]
    | cons p rest ih =>
        intro acc
        simp only [List.foldl_cons]
        rw [entryDeleteRows_step_append, ih, mergeDeleteRows_cons]
        simp
  simpa [collectDeleteRows] using step m []

theorem setApplied_data (ib : InsertBlock) :
    ({ ib with apply := true } : InsertBlock).data = ib.data := rfl

theorem entryDeleteRows_setApplied (ibs : List InsertBlock) :
    entryDeleteRows (setApplied ibs) = entryDeleteRows ibs := by
  induction ibs with
  | nil => rfl
  | cons ib rest ih =>
      show entryDeleteRows ({ ib with apply := true } :: setApplied rest) = _
      simp only [entryDeleteRows, setApplied_data, ih]

theorem mergeDeleteRows_update : ∀ (m : IBMap) (tid : Nat)
    (p : Nat × List InsertBlock),
    m.find? (fun q => decide (q.1 = tid)) = some p →
    (m.map Prod.fst).Nodup →
    mergeDeleteRows
        (m.map (fun q => if q.1 = tid then (q.1, setApplied p.2) else q))
      = mergeDeleteRows m := by
  intro m
  induction m with
  | nil => intro tid p hfind _; cases hfind
  | cons q rest ih =>
      intro tid p hfind hnodup
      rw [List.map_cons] at hnodup
      obtain ⟨hq, hrest⟩ := List.nodup_cons.mp hnodup
      by_cases h : q.1 = tid
      · have hp : p = q := by
          rw [List.find?_cons_of_pos _ (by simpa using h)] at hfind
          injection hfind with h'
          exact h'.symm
        subst hp
        have hnm : ∀ x ∈ rest, x.1 ≠ tid := by
          intro x hx hc
          exact hq (by
            rw [h, ← hc]
            exact List.mem_map_of_mem Prod.fst hx)
        rw [List.map_cons, if_pos h, ibmap_update_not_mem rest tid _ hnm,
          mergeDeleteRows_cons, mergeDeleteRows_cons, entryDeleteRows_setApplied]
      · have hfind' : rest.find? (fun q => decide (q.1 = tid)) = some p := by
          rw [List.find?_cons_of_neg _ (by simpa using h)] at hfind
          exact hfind
        rw [List.map_cons, if_neg h, mergeDeleteRows_cons, mergeDeleteRows_cons,
          ih tid p hfind' hrest]

theorem entryDeleteRows_nil_of_no_data : ∀ (ibs : List InsertBlock),
    (∀ ib ∈ ibs, ib.data = none) → entryDeleteRows ibs = [] := by
  intro ibs
  induction ibs with
  | nil => intro _; rfl
  | cons ib rest ih =>
      intro h
      have hib := h ib (List.mem_cons_self ib rest)
      have hrest := fun x hx => h x (List.mem_cons_of_mem ib hx)
      simp [entryDeleteRows, hib, ih hrest]

theorem mergeDeleteRows_nil_of_no_data : ∀ (m : IBMap),
    (∀ p ∈ m, ∀ ib ∈ p.2, ib.data = none) → mergeDeleteRows m = [] := by
  intro m
  induction m with
  | nil => intro _; rfl
  | cons p rest ih =>
      intro h
      have hp := h p (List.mem_cons_self p rest)
      have hrest := fun x hx => h x (List.mem_cons_of_mem p hx)
      rw [mergeDeleteRows_cons, entryDeleteRows_nil_of_no_data p.2 hp, ih hrest]
      rfl

theorem compactRows_length {α : Type} (l : List α) (del : List Nat) :
    (compactRows l del).length =
      ((List.range l.length).filter (fun i => decide (i ∉ del))).length := by
  rw [compactRows, List.length_map, ← List.countP_eq_length_filter,
    ← List.countP_eq_length_filter, ← List.enum_map_fst (l := l),
    List.countP_map]
  rfl

theorem compactRows_nil_del {α : Type} (l : List α) : compactRows l [] = l := by
  have h : ∀ p ∈ l.enum, (decide (p.1 ∉ ([] : List Nat))) = true := by
    intro p _; simp
  rw [compactRows, List.filter_eq_self.mpr h, List.enum_map_snd]

/-- Conservation invariant of the first reconciliation pass: each original
live row appends exactly one row, each newly applied promotion appends
exactly one more; the promotion map keeps its keys and its recorded
delete-side rows. -/
theorem reconcileFirstPass_invariant (cn : List MetaRow)
    (delTxn insTxn : List TxnRow) :
    ∀ (rows : List MetaRow) (i : Nat) (acc : List MetaRow × List TxnRow)
      (m : IBMap), (m.map Prod.fst).Nodup →
    ((reconcileFirstPass cn delTxn insTxn i rows acc m).1.1.length
        + unappliedTotal (reconcileFirstPass cn delTxn insTxn i rows acc m).2
      = acc.1.length + rows.length + unappliedTotal m)
    ∧ ((reconcileFirstPass cn delTxn insTxn i rows acc m).2.map Prod.fst
        = m.map Prod.fst)
    ∧ (mergeDeleteRows (reconcileFirstPass cn delTxn insTxn i rows acc m).2
        = mergeDeleteRows m) := by
  intro rows
  induction rows with
  | nil =>
      intro i acc m _
      exact ⟨by simp [reconcileFirstPass], rfl, rfl⟩
  | cons r rest ih =>
      intro i acc m hnodup
      simp only [reconcileFirstPass]
      cases hfind : m.find?
          (fun p => decide (p.1 = (insTxn.getD i defaultTxnRow).tid)) with
      | none =>
          obtain ⟨h1, h2, h3⟩ := ih (i + 1)
            (acc.1 ++ [r], acc.2 ++ [insTxn.getD i defaultTxnRow]) m hnodup
          refine ⟨?_, h2, h3⟩
          rw [h1]
          simp only [List.length_append, List.length_cons, List.length_nil]
          omega
      | some p =>
          have hres2 := applyIBList_snd_eq cn delTxn p.2
            (acc.1 ++ [r], acc.2 ++ [insTxn.getD i defaultTxnRow])
          have hkeys := ibmap_update_keys m
            ((insTxn.getD i defaultTxnRow).tid)
            ((applyIBList cn delTxn
              (acc.1 ++ [r], acc.2 ++ [insTxn.getD i defaultTxnRow]) p.2).2)
          have hnodup' : ((m.map (fun q =>
              if q.1 = (insTxn.getD i defaultTxnRow).tid
              then (q.1, (applyIBList cn delTxn
                (acc.1 ++ [r], acc.2 ++ [insTxn.getD i defaultTxnRow]) p.2).2)
              else q)).map Prod.fst).Nodup := by
            rw [hkeys]; exact hnodup
          obtain ⟨h1, h2, h3⟩ := ih (i + 1)
            (applyIBList cn delTxn
              (acc.1 ++ [r], acc.2 ++ [insTxn.getD i defaultTxnRow]) p.2).1
            _ hnodup'
          have hupd := unappliedTotal_update m
            ((insTxn.getD i defaultTxnRow).tid) p
            ((applyIBList cn delTxn
              (acc.1 ++ [r], acc.2 ++ [insTxn.getD i defaultTxnRow]) p.2).2)
            hfind hnodup
          have hmerge := mergeDeleteRows_update m
            ((insTxn.getD i defaultTxnRow).tid) p hfind hnodup
          refine ⟨?_, by rw [h2, hkeys], ?_⟩
          · have hreslen := applyIBList_fst_fst_length cn delTxn p.2
              (acc.1 ++ [r], acc.2 ++ [insTxn.getD i defaultTxnRow])
            rw [h1, hreslen]
            have huc0 : unappliedCount ((applyIBList cn delTxn
                (acc.1 ++ [r], acc.2 ++ [insTxn.getD i defaultTxnRow])
                p.2).2) = 0 := by
              rw [hres2]; exact unappliedCount_setApplied p.2
            rw [huc0] at hupd
            have hpair : ((acc.1 ++ [r],
                acc.2 ++ [insTxn.getD i defaultTxnRow]) :
                List MetaRow × List TxnRow).1.length
                = (acc.1 ++ [r]).length := rfl
            have hacclen : (acc.1 ++ [r]).length = acc.1.length + 1 := by
              simp
            simp only [List.length_cons]
            omega
          · rw [h3, hres2, hmerge]

/-- The second reconciliation pass appends exactly one row per remaining
unapplied promotion and keeps the map's recorded delete-side rows. -/
theorem reconcileSecondPass_invariant (cn : List MetaRow) (delTxn : List TxnRow) :
    ∀ (m : IBMap) (acc : List MetaRow × List TxnRow),
    ((reconcileSecondPass cn delTxn m acc).1.1.length
      = acc.1.length + unappliedTotal m)
    ∧ (mergeDeleteRows (reconcileSecondPass cn delTxn m acc).2
        = mergeDeleteRows m) := by
  intro m
  induction m with
  | nil =>
      intro acc
      exact ⟨by simp [reconcileSecondPass, unappliedTotal], rfl⟩
  | cons p rest ih =>
      intro acc
      simp only [reconcileSecondPass]
      obtain ⟨h1, h2⟩ := ih (applyIBList cn delTxn acc p.2).1
      constructor
      · rw [h1, applyIBList_fst_fst_length, unappliedTotal_cons]
        omega
      · rw [mergeDeleteRows_cons, mergeDeleteRows_cons]
        dsimp only
        rw [h2, applyIBList_snd_eq, entryDeleteRows_setApplied]

/-- Counterexample for C3: reconciling a single appendable-block promotion
(`wIbA`, which carries a new location but no block data) appends exactly
one row to the replacement live-insert table — but removes zero rows from
the delete-side tables, not one, so the removed count does not equal the
number of promotions applied. -/
theorem promotion_accounting_counterexample :
    (reconcileInsertBatch [(11, [wIbA])] wData5).metaInsert.length
        = wData5.metaInsert.length + 1
    ∧ (reconcileInsertBatch [(11, [wIbA])] wData5).cnMetaInsert.length
        = wData5.cnMetaInsert.length
    ∧ wData5.cnMetaInsert.length = 1
    ∧ (reconcileInsertBatch [(11, [wIbA])] wData5).metaDelete
        = wData5.metaDelete := by
  refine ⟨?_, ?_, rfl, ?_⟩ <;> rfl

/-- C3 amended: after reconciliation the replacement live-insert table
holds the original live rows plus one row per applied promotion; the rows
removed from the three delete-side tables by compaction are exactly the
in-range delete-side row indices recorded by merge-path promotions (those
carrying block data) — promotions without block data (the
appendable-block promotions) remove no delete-side rows at all. -/
theorem reconcile_promotion_accounting (m : IBMap) (d : CheckpointData)
    (hnodup : (m.map Prod.fst).Nodup)
    (hfresh : ∀ p ∈ m, ∀ ib ∈ p.2, ib.apply = false) :
    (reconcileInsertBatch m d).metaInsert.length
        = d.metaInsert.length + ibTotal m
    ∧ (reconcileInsertBatch m d).cnMetaInsert.length
        = ((List.range d.cnMetaInsert.length).filter
            (fun i => decide (i ∉ mergeDeleteRows m))).length
    ∧ (reconcileInsertBatch m d).metaDelTxn.length
        = ((List.range d.metaDelTxn.length).filter
            (fun i => decide (i ∉ mergeDeleteRows m))).length
    ∧ (reconcileInsertBatch m d).metaDelete.length
        = ((List.range d.metaDelete.length).filter
            (fun i => decide (i ∉ mergeDeleteRows m))).length
    ∧ ((∀ p ∈ m, ∀ ib ∈ p.2, ib.data = none) →
        (reconcileInsertBatch m d).cnMetaInsert = d.cnMetaInsert
        ∧ (reconcileInsertBatch m d).metaDelTxn = d.metaDelTxn
        ∧ (reconcileInsertBatch m d).metaDelete = d.metaDelete) := by
  cases m with
  | nil =>
      have hr : reconcileInsertBatch [] d = d := by simp [reconcileInsertBatch]
      have hfl : ∀ (n : Nat),
          ((List.range n).filter
            (fun i => decide (i ∉ mergeDeleteRows ([] : IBMap)))).length = n := by
        intro n
        have : ∀ i ∈ List.range n,
            (decide (i ∉ mergeDeleteRows ([] : IBMap))) = true := by
          intro i _
          simp [mergeDeleteRows]
        rw [List.filter_eq_self.mpr this, List.length_range]
      exact ⟨by simp [hr, ibTotal], by rw [hr, hfl], by rw [hr, hfl],
        by rw [hr, hfl], fun _ => ⟨by rw [hr], by rw [hr], by rw [hr]⟩⟩
  | cons q qs =>
      have hlen : (q :: qs).length > 0 := Nat.succ_pos _
      have hfp := reconcileFirstPass_invariant d.cnMetaInsert d.metaDelTxn
        d.metaInsTxn d.metaInsert 0 ([], []) (q :: qs) hnodup
      have hsp := reconcileSecondPass_invariant d.cnMetaInsert d.metaDelTxn
        (reconcileFirstPass d.cnMetaInsert d.metaDelTxn d.metaInsTxn 0
          d.metaInsert ([], []) (q :: qs)).2
        (reconcileFirstPass d.cnMetaInsert d.metaDelTxn d.metaInsTxn 0
          d.metaInsert ([], []) (q :: qs)).1
      have hdel : collectDeleteRows
          (reconcileSecondPass d.cnMetaInsert d.metaDelTxn
            (reconcileFirstPass d.cnMetaInsert d.metaDelTxn d.metaInsTxn 0
              d.metaInsert ([], []) (q :: qs)).2
            (reconcileFirstPass d.cnMetaInsert d.metaDelTxn d.metaInsTxn 0
              d.metaInsert ([], []) (q :: qs)).1).2
          = mergeDeleteRows (q :: qs) := by
        rw [collectDeleteRows_eq_merge, hsp.2, hfp.2.2]
      have hrec : reconcileInsertBatch (q :: qs) d =
          { d with
            cnMetaInsert := compactRows d.cnMetaInsert (mergeDeleteRows (q :: qs)),
            metaDelTxn := compactRows d.metaDelTxn (mergeDeleteRows (q :: qs)),
            metaDelete := compactRows d.metaDelete (mergeDeleteRows (q :: qs)),
            metaInsert := (reconcileSecondPass d.cnMetaInsert d.metaDelTxn
              (reconcileFirstPass d.cnMetaInsert d.metaDelTxn d.metaInsTxn 0
                d.metaInsert ([], []) (q :: qs)).2
              (reconcileFirstPass d.cnMetaInsert d.metaDelTxn d.metaInsTxn 0
                d.metaInsert ([], []) (q :: qs)).1).1.1,
            metaInsTxn := (reconcileSecondPass d.cnMetaInsert d.metaDelTxn
              (reconcileFirstPass d.cnMetaInsert d.metaDelTxn d.metaInsTxn 0
                d.metaInsert ([], []) (q :: qs)).2
              (reconcileFirstPass d.cnMetaInsert d.metaDelTxn d.metaInsTxn 0
                d.metaInsert ([], []) (q :: qs)).1).1.2 } := by
        unfold reconcileInsertBatch
        rw [if_pos hlen]
        simp only [hdel]
      refine ⟨?_, ?_, ?_, ?_, ?_⟩
      · rw [hrec]
        show (reconcileSecondPass _ _ _ _).1.1.length = _
        rw [hsp.1]
        have h1 := hfp.1
        rw [unappliedTotal_eq_ibTotal (q :: qs) hfresh] at h1
        simp only [List.length_nil] at h1
        omega
      · rw [hrec]; exact compactRows_length d.cnMetaInsert _
      · rw [hrec]; exact compactRows_length d.metaDelTxn _
      · rw [hrec]; exact compactRows_length d.metaDelete _
      · intro hdata
        have hmerge0 := mergeDeleteRows_nil_of_no_data (q :: qs) hdata
        rw [hrec]
        exact ⟨by rw [show (compactRows d.cnMetaInsert (mergeDeleteRows (q :: qs))) =
            d.cnMetaInsert by rw [hmerge0, compactRows_nil_del]],
          by rw [show (compactRows d.metaDelTxn (mergeDeleteRows (q :: qs))) =
            d.metaDelTxn by rw [hmerge0, compactRows_nil_del]],
          by rw [show (compactRows d.metaDelete (mergeDeleteRows (q :: qs))) =
            d.metaDelete by rw [hmerge0, compactRows_nil_del]]⟩

/-- Witness for C3's amended claim: one appendable-block promotion over
`wData5` grows the live table by one and leaves the delete-side tables
whole. -/
theorem reconcile_promotion_accounting_witness :
    (([(11, [wIbA])] : IBMap).map Prod.fst).Nodup
    ∧ (∀ p ∈ ([(11, [wIbA])] : IBMap), ∀ ib ∈ p.2, ib.apply = false)
    ∧ (reconcileInsertBatch [(11, [wIbA])] wData5).metaInsert.length
        = wData5.metaInsert.length + ibTotal [(11, [wIbA])]
    ∧ (reconcileInsertBatch [(11, [wIbA])] wData5).cnMetaInsert
        = wData5.cnMetaInsert := by
  have h := reconcile_promotion_accounting [(11, [wIbA])] wData5
    (by decide) (by decide)
  exact ⟨by decide, by decide, h.1, (h.2.2.2.2 (by decide)).1⟩

/-- C10: a promotion applied with a non-empty new location appends the
copied delete-side row and rewrites it as a sealed block record: row id
and block id from the newly generated block id, entry-state false (not
appendable), segment id from the new block id, meta-location set to the
new location, and the delta-location (tombstone location) nulled in both
the metadata table and its transaction-attribution table. -/
theorem promotion_row_recorded_sealed (cn : List MetaRow) (delTxn : List TxnRow)
    (acc : List MetaRow × List TxnRow) (ib : InsertBlock) (l : Loc)
    (hap : ib.apply = false) (hloc : ib.location = some l)
    (hlen : acc.2.length = acc.1.length) :
    (applyIB cn delTxn acc ib).1.1 =
      acc.1 ++ [{ cn.getD ib.deleteRow defaultMetaRow with
                  rowID := hackBlockid2Rowid ib.blockId,
                  blockID := ib.blockId,
                  entryState := false,
                  sorted := !(match ib.data with
                              | some bd => bd.isABlock && bd.sortKey = maxUint16
                              | none => false),
                  segmentID := ib.blockId.segment,
                  metaLoc := some l,
                  deltaLoc := none }]
    ∧ (applyIB cn delTxn acc ib).1.2 =
      acc.2 ++ [{ delTxn.getD ib.deleteRow defaultTxnRow with
                  metaLoc := some l, deltaLoc := none }] := by
  simp only [applyIB, hap, hloc, Bool.false_eq_true, if_false, updateBlockMeta]
  constructor
  · have hx : (acc.1 ++ [cn.getD ib.deleteRow defaultMetaRow]).length - 1 =
        acc.1.length := by simp
    rw [hx, listModify_append_singleton]
  · have hx : (acc.1 ++ [cn.getD ib.deleteRow defaultMetaRow]).length - 1 =
        acc.2.length := by simp [hlen]
    rw [hx, listModify_append_singleton]

/-- Witness for C10: applying the concrete promotion `wIbA` over one-row
tables appends the sealed record with the promoted identity. -/
theorem promotion_row_recorded_sealed_witness :
    wIbA.apply = false ∧ wIbA.location = some (wLoc 0)
    ∧ (applyIB [defaultMetaRow] [defaultTxnRow] ([], []) wIbA).1.1 =
        [{ defaultMetaRow with
           rowID := hackBlockid2Rowid wBid, blockID := wBid,
           entryState := false, sorted := true, segmentID := 3,
           metaLoc := some (wLoc 0), deltaLoc := none }]
    ∧ (applyIB [defaultMetaRow] [defaultTxnRow] ([], []) wIbA).1.2 =
        [{ defaultTxnRow with metaLoc := some (wLoc 0), deltaLoc := none }] := by
  have h := promotion_row_recorded_sealed [defaultMetaRow] [defaultTxnRow]
    ([], []) wIbA (wLoc 0) rfl rfl rfl
  refine ⟨rfl, rfl, ?_, ?_⟩
  · rw [h.1]; rfl
  · rw [h.2]; rfl

end Backup
